import Mathlib

/-!
# gopherjs-bind: the `jsbind` package

A shallow embedding of `src/jsbind/variables.go` and `src/jsbind/format.go`.

Conventions of the embedding.

* A Go `string` coming out of the script engine is valid UTF-8 and is modelled by a Lean
  `String` (a sequence of runes).  `fmt.Sprintf` with `%s` verbs is string concatenation.
* A Go function that can return an `error` or panic returns an `Except`/`Option`/`Outcome`.
* The one pointer of the program whose target is mutated after the pointer has been stored
  (`Method.Binding`, which points at the `Struct` that `Binding.Add` is still filling) is an
  address into an explicit heap of `Struct`s.  The other pointers (`*Variable`, `*Method`)
  are never written through and are modelled by their values, `nil` being `none`.
-/

namespace Jsbind

/-! ## variables.go -/

/-- The Go type `Variable` (variables.go:5): a name and a type, both strings. -/
structure Variable where
  Name : String
  Typ : String
deriving DecidableEq, Repr

/-- The Go type `VarList` (variables.go:38), a slice of `Variable`. -/
abbrev VarList := List Variable

/-- Function `capitialize` (format.go:312): `strings.ToUpper(str[:1]) + str[1:]`, the empty
string being returned as it is.  `str[:1]` is the first byte.  For an ASCII first character
`strings.ToUpper` maps `a..z` to `A..Z` and leaves every other character alone, which is what
`Char.toUpper` does: on a string that is empty or starts with an ASCII character the
definition is the function of the source.  When the string starts with a multi-byte rune,
`str[:1]` is a lone lead byte, which `strings.ToUpper` replaces by U+FFFD, the other bytes of
the rune following it; that result is no sequence of characters and differs from `str`,
whereas the definition leaves `str` unchanged.  The rule that tells constructors from instance
methods is therefore stated for names whose first character is ASCII (`c.toNat < 128`). -/
def capitialize (str : String) : String :=
  match str.data with
  | [] => str
  | c :: cs => String.mk (c.toUpper :: cs)

/-- Method `(*Variable).capitialized` (variables.go:9). -/
def Variable.capitialized (v : Variable) : Variable :=
  { Name := capitialize v.Name, Typ := v.Typ }

/-- The entries of the Go map literal `reservedKeywords` (variables.go:49), in source order. -/
def reservedKeywordsEntries : List (String × Bool) :=
  [ ("break", true), ("default", true), ("func", true), ("interface", true),
    ("select", true), ("case", true), ("defer", true), ("go", true), ("map", true),
    ("struct", true), ("chan", true), ("else", true), ("goto", true), ("package", true),
    ("switch", true), ("const", true), ("fallthrough", true), ("if", true),
    ("range", true), ("type", true), ("continue", true), ("for", true), ("import", true),
    ("return", true), ("var", true) ]

/-- Indexing the map `reservedKeywords[name]`: the stored value, or the zero value `false`
for a key that is not in the map. -/
def reservedKeywords (name : String) : Bool :=
  (reservedKeywordsEntries.lookup name).getD false

/-- Method `(*Variable).sanitized` (variables.go:16). -/
def Variable.sanitized (v : Variable) : Variable :=
  let name := v.Name
  let name := if reservedKeywords name then name ++ "_" else name
  { Name := name, Typ := v.Typ }

/-- Method `VarList.sanitized` (variables.go:40): a fresh list of the same length whose
`i`-th cell is the sanitized `i`-th variable. -/
def VarList.sanitized : VarList → VarList
  | [] => []
  | val :: rest => val.sanitized :: VarList.sanitized rest

/-- Method `VarList.list` (variables.go:77): all but the last variable are appended as
`Name Type, `, then the last one as `Name Type`. -/
def VarList.list (vl : VarList) : String :=
  match vl.getLast? with
  | none => ""
  | some lastVar =>
    let listStr := vl.dropLast.foldl (fun acc v => acc ++ (v.Name ++ " " ++ v.Typ ++ ", ")) ""
    listStr ++ (lastVar.Name ++ " " ++ lastVar.Typ)

/-- Method `VarList.listNames` (variables.go:94). -/
def VarList.listNames (vl : VarList) : String :=
  match vl.getLast? with
  | none => ""
  | some lastVar =>
    let listStr := vl.dropLast.foldl (fun acc v => acc ++ (v.Name ++ ", ")) ""
    listStr ++ lastVar.Name

/-- Method `VarList.listTypes` (variables.go:110). -/
def VarList.listTypes (vl : VarList) : String :=
  match vl.getLast? with
  | none => ""
  | some lastVar =>
    let listStr := vl.dropLast.foldl (fun acc v => acc ++ (v.Typ ++ ", ")) ""
    listStr ++ lastVar.Typ

/-- The Go type `interface{}` as it is written in the generated text. -/
def anyType : String := "interface\x7b\x7d"

/-! ## The regular expressions of format.go

Go's `regexp` returns, among the matches that start leftmost, the one that a backtracking
search finds first.  The three patterns of format.go are built from literal characters, one
character classes, greedy stars of one character classes, `$` under the flag `m`,
concatenation, alternation and one capturing group each: that fragment is embedded here, with
a backtracking matcher written in continuation-passing style. -/

/-- Syntax of the fragment of regular expressions that format.go uses. -/
inductive Regex where
  /-- One literal character. -/
  | lit (c : Char)
  /-- One character of a class, as in `[^)]`. -/
  | cls (p : Char → Bool)
  /-- Greedy repetition `x*` of a one-character class. -/
  | star (p : Char → Bool)
  /-- The assertion `$` under the flag `m`: end of text or end of line. -/
  | eol
  /-- Concatenation. -/
  | cat (a b : Regex)
  /-- Alternation `a|b`, `a` being preferred. -/
  | alt (a b : Regex)
  /-- Capturing group. -/
  | group (a : Regex)

/-- Greedy star, backtracking: take one more character of the class when the rest of the
pattern (the continuation `k`) then succeeds, stop here otherwise. -/
def Regex.starRun {α : Type} (p : Char → Bool) (k : List Char → Option α) :
    List Char → Option α
  | [] => k []
  | c :: cs =>
    if p c then
      match Regex.starRun p k cs with
      | some r => some r
      | none => k (c :: cs)
    else k (c :: cs)

/-- Backtracking match of `re` at the start of `s`.  `cap` is the text of the capturing
group so far; the continuation `k` receives the unmatched rest of the text and the capture. -/
def Regex.run {α : Type} : Regex → List Char → Option (List Char) →
    (List Char → Option (List Char) → Option α) → Option α
  | .lit c, s, cap, k =>
    match s with
    | [] => none
    | d :: ds => if d = c then k ds cap else none
  | .cls p, s, cap, k =>
    match s with
    | [] => none
    | d :: ds => if p d then k ds cap else none
  | .star p, s, cap, k => Regex.starRun p (fun r => k r cap) s
  | .eol, s, cap, k =>
    match s with
    | [] => k [] cap
    | d :: ds => if d = '\n' then k (d :: ds) cap else none
  | .cat a b, s, cap, k => Regex.run a s cap (fun r cap1 => Regex.run b r cap1 k)
  | .alt a b, s, cap, k =>
    match Regex.run a s cap k with
    | some r => some r
    | none => Regex.run b s cap k
  | .group a, s, _, k =>
    Regex.run a s none (fun r _ => k r (some (s.take (s.length - r.length))))

/-- The literal word `w` followed by `next`. -/
def Regex.word (w : List Char) (next : Regex) : Regex :=
  w.foldr (fun c r => Regex.cat (Regex.lit c) r) next

/-- The preferred match of `re` at the start of `s`: the rest of the text after the match
and the text of the capturing group, if the group took part in the match. -/
def Regex.matchPrefix (re : Regex) (s : List Char) :
    Option (List Char × Option (List Char)) :=
  Regex.run re s none (fun r cap => some (r, cap))

/-- Loop of `ReplaceAllString`: `skip` counts the characters of the current match that are
still to be dropped.  The patterns it is used with match no empty string; an empty match is
treated as no match. -/
def Regex.replaceAllGo (re : Regex) (repl : List Char) : Nat → List Char → List Char
  | _, [] => []
  | skip + 1, _ :: cs => Regex.replaceAllGo re repl skip cs
  | 0, c :: cs =>
    match Regex.matchPrefix re (c :: cs) with
    | some (rest, _) =>
      if rest.length ≤ cs.length then
        repl ++ Regex.replaceAllGo re repl (cs.length - rest.length) cs
      else c :: Regex.replaceAllGo re repl 0 cs
    | none => c :: Regex.replaceAllGo re repl 0 cs

/-- Method `(*Regexp).ReplaceAllString(src, repl)` for a `repl` without `$` references: every
leftmost non-overlapping match is replaced by `repl`. -/
def Regex.ReplaceAllString (re : Regex) (src repl : List Char) : List Char :=
  Regex.replaceAllGo re repl 0 src

/-- Leftmost match of `re` in the text, as `(rest after the match, capture)`. -/
def Regex.find (re : Regex) : List Char → Option (List Char × Option (List Char))
  | [] => Regex.matchPrefix re []
  | c :: cs =>
    match Regex.matchPrefix re (c :: cs) with
    | some m => some m
    | none => Regex.find re cs

/-- The expression `re.FindStringSubmatch(s)[1]`: the text of the first capturing group of the
leftmost match (empty when the group took no part).  Without a match `FindStringSubmatch`
returns `nil` and the index expression panics: `none`. -/
def Regex.FindStringSubmatch1 (re : Regex) (s : List Char) : Option (List Char) :=
  match Regex.find re s with
  | none => none
  | some (_, cap) => some (cap.getD [])

/-- Loop of `Split`: the pieces of the text between the matches, the first piece of the
result being the one under construction.  The patterns it is used with match no empty
string; an empty match is treated as no match. -/
def Regex.splitGo (re : Regex) : Nat → List Char → List (List Char)
  | _, [] => [[]]
  | skip + 1, _ :: cs => Regex.splitGo re skip cs
  | 0, c :: cs =>
    match Regex.matchPrefix re (c :: cs) with
    | some (rest, _) =>
      if rest.length ≤ cs.length then
        [] :: Regex.splitGo re (cs.length - rest.length) cs
      else
        match Regex.splitGo re 0 cs with
        | [] => [[c]]
        | piece :: pieces => (c :: piece) :: pieces
    | none =>
      match Regex.splitGo re 0 cs with
      | [] => [[c]]
      | piece :: pieces => (c :: piece) :: pieces

/-- Method `(*Regexp).Split(s, -1)`: the substrings of `s` between the leftmost
non-overlapping matches, the text before the first match and after the last one included. -/
def Regex.Split (re : Regex) (s : List Char) : List (List Char) :=
  Regex.splitGo re 0 s

/-- The class `\s` of Go regular expressions: `[\t\n\f\r ]`. -/
def reSpace (c : Char) : Bool :=
  c = '\t' || c = '\n' || c = '\x0c' || c = '\r' || c = ' '

/-- The class `.` under the flag `s`: every character, the newline included. -/
def reAny (_ : Char) : Bool := true

/-- The class `[^\)]`. -/
def reNotClose (c : Char) : Bool := !(c = ')')

/-- Pattern ``((?ms:\/\/.*$)|(?ms:\/\*.*\*\/))`` (format.go:279). -/
def commentRegexp : Regex :=
  .group (.alt
    (.cat (.lit '/') (.cat (.lit '/') (.cat (.star reAny) .eol)))
    (.cat (.lit '/') (.cat (.lit '*') (.cat (.star reAny) (.cat (.lit '*') (.lit '/'))))))

/-- Pattern ``function\s*\(((?s:[^\)]*))\)`` (format.go:280). -/
def parensRegexp : Regex :=
  Regex.word "function".data
    (.cat (.star reSpace) (.cat (.lit '(') (.cat (.group (.star reNotClose)) (.lit ')'))))

/-- Pattern ``\s*,\s*`` (format.go:281). -/
def splitRegexp : Regex :=
  .cat (.star reSpace) (.cat (.lit ',') (.star reSpace))

/-- Function `unicode.IsSpace`: the characters with the Unicode property White_Space. -/
def unicodeIsSpace (c : Char) : Bool :=
  c = '\t' || c = '\n' || c = '\x0b' || c = '\x0c' || c = '\r' || c = ' ' ||
  c = '\u0085' || c = '\u00a0' || c = '\u1680' ||
  (0x2000 ≤ c.toNat && c.toNat ≤ 0x200a) ||
  c = '\u2028' || c = '\u2029' || c = '\u202f' || c = '\u205f' || c = '\u3000'

/-- Function `strings.TrimSpace`: the text without its leading and trailing white space. -/
def TrimSpace (s : List Char) : List Char :=
  ((s.dropWhile unicodeIsSpace).reverse.dropWhile unicodeIsSpace).reverse

/-! ## The values of the script engine (package `otto`)

The program inspects a value only through its kind, its class, its source text, its own
enumerable keys and the results of reading properties.  A finite object graph is a tree of
such observations. -/

mutual
/-- An `otto.Value`: a primitive of one of five kinds, or an object. -/
inductive Value where
  | undefined
  | null
  | boolean
  | number
  | string
  | object (o : Object)
/-- An `otto.Object`: `cls` is what `Class()` returns, `text` what `String()` returns (for a
function, its source text), `props` the keys of `Keys()` in enumeration order, each with the
result of `Get(key)`, and `proto` the result of `Get("prototype")`. -/
inductive Object where
  | mk (cls : String) (text : String) (props : Props) (proto : GetResult)
/-- The own enumerable keys of an object, in enumeration order, with the result of reading
each of them. -/
inductive Props where
  | nil
  | cons (key : String) (get : GetResult) (rest : Props)
/-- The two results of `Object.Get`: a value, or an error (a getter that throws). -/
inductive GetResult where
  | ok (val : Value)
  | error (err : String)
end

/-- Method `Value.String()` of a function object: its source text. -/
def Object.String : Object → String
  | .mk _ text _ _ => text

/-- Method `Value.IsObject()`. -/
def Value.IsObject : Value → Bool
  | .object _ => true
  | _ => false

/-- Method `Value.IsPrimitive()`, which otto defines as `!value.IsObject()`. -/
def Value.IsPrimitive (val : Value) : Bool := !val.IsObject

/-- Method `Value.Class()`: the class of an object, the empty string for a primitive. -/
def Value.Class : Value → String
  | .object (.mk cls _ _ _) => cls
  | _ => ""

/-- Method `Value.IsFunction()`: an object of class `Function`. -/
def Value.IsFunction (val : Value) : Bool := val.IsObject && val.Class = "Function"

/-- Method `Value.IsString()`. -/
def Value.IsString : Value → Bool
  | .string => true
  | _ => false

/-- Method `Value.IsBoolean()`. -/
def Value.IsBoolean : Value → Bool
  | .boolean => true
  | _ => false

/-- Method `Value.IsNumber()`. -/
def Value.IsNumber : Value → Bool
  | .number => true
  | _ => false

/-- Builds the `Props` of an object from a list of keys with their read results. -/
def Props.ofList : List (String × GetResult) → Props
  | [] => .nil
  | (key, get) :: rest => .cons key get (Props.ofList rest)

/-- Method `(*Variable).setType` (variables.go:25). -/
def Variable.setType (v : Variable) (val : Value) : Variable :=
  if val.IsString then { v with Typ := "string" }
  else if val.IsBoolean then { v with Typ := "bool" }
  else if val.IsNumber then { v with Typ := "float64" }
  else { v with Typ := anyType }

/-! ## format.go: the elements of a binding and their text -/

/-- The Go type `Method` (format.go:97).  `Binding` is the address of the owning `Struct` in
the heap, `none` being the `nil` pointer. -/
structure Method where
  Name : String
  Binding : Option Nat
  Params : VarList
  Return : Option Variable
deriving DecidableEq, Repr

/-- The Go type `Struct` (format.go:180). -/
structure Struct where
  Name : String
  Methods : List Method
  Fields : List Variable
deriving DecidableEq, Repr

/-- The Go type `Interface` (format.go:70). -/
structure Interface where
  Name : String
  Methods : List Method
deriving DecidableEq, Repr

/-- The memory that holds the `Struct`s which `Binding.Add` allocates: a pointer `*Struct`
is an index into this list. -/
abbrev Heap := List Struct

/-- Reading through a `*Struct`.  An address outside the heap cannot arise in Go; for such an
address the zero `Struct` is returned. -/
def Heap.deref (h : Heap) (p : Nat) : Struct :=
  h.getD p { Name := "", Methods := [], Fields := [] }

/-- Writing through a `*Struct`: the cell at address `p` is replaced by `f` of it. -/
def Heap.update (h : Heap) (p : Nat) (f : Struct → Struct) : Heap :=
  match h.get? p with
  | some s => h.set p (f s)
  | none => h

/-- The values of the Go interface `Element` (format.go:66) that the program builds:
`*Interface`, `*Struct` (an address in the heap) and `*Method`. -/
inductive Element where
  | iface (i : Interface)
  | struct (p : Nat)
  | method (m : Method)
deriving DecidableEq, Repr

/-- The Go type `Binding` (format.go:13). -/
structure Binding where
  name : String
  elems : List Element
deriving DecidableEq, Repr

/-- Function `New` (format.go:23). -/
def New (name : String) : Binding := { name := name, elems := [] }

/-- Method `(*Binding).addElement` (format.go:27). -/
def Binding.addElement (b : Binding) (e : Element) : Binding :=
  { b with elems := b.elems ++ [e] }

deriving instance DecidableEq for Except

/-- Method `(*Method).genConstructor` (format.go:146). -/
def Method.genConstructor (m : Method) : List String :=
  let cleanParams := VarList.sanitized m.Params
  [ "func New" ++ m.Name ++ "(" ++ VarList.list cleanParams ++ ") *" ++ m.Name ++ " \x7b",
    "return js.Global.Get(\"" ++ m.Name ++ "\").New(" ++ VarList.listNames cleanParams ++ ")",
    "\x7d" ]

/-- Method `(*Method).genCastObject` (format.go:165). -/
def Method.genCastObject (obj goType : String) : Except String String :=
  if goType = "float64" then .ok (obj ++ ".Float()")
  else if goType = "int" then .ok (obj ++ ".Int()")
  else if goType = "string" then .ok (obj ++ ".Str()")
  else if goType = anyType then .ok (obj ++ ".Interface()")
  else .error "Function may only return float64, int, string, or interface\x7b\x7d"

/-- Method `(*Method).Text` (format.go:104).  The `panic(err)` of the source is the result
`.error err`. -/
def Method.Text (h : Heap) (m : Method) : Except String (List String) :=
  if capitialize m.Name = m.Name then .ok m.genConstructor
  else
    let binding :=
      match m.Binding with
      | none => ""
      | some p => "(self *" ++ (h.deref p).Name ++ ")"
    let cleanParams := VarList.sanitized m.Params
    let lines :=
      [ "func " ++ binding ++ " " ++ capitialize m.Name ++ "(" ++ VarList.list cleanParams ++
          ") " ++ anyType ++ " \x7b" ]
    let jsInvocation :=
      "self.Call(\"" ++ m.Name ++ "\", " ++ VarList.listNames cleanParams ++ ")"
    match m.Return with
    | none => .ok (lines ++ [jsInvocation, "\x7d"])
    | some ret =>
      match Method.genCastObject jsInvocation ret.Typ with
      | .error err => .error err
      | .ok castedObj => .ok (lines ++ ["return " ++ castedObj, "\x7d"])

/-- Method `(*Struct).Text` (format.go:186). -/
def Struct.Text (s : Struct) : List String :=
  let lines := [ "type " ++ s.Name ++ " struct \x7b", "js.Object" ]
  let lines := s.Fields.foldl
    (fun lines field =>
      lines ++ [ (field.capitialized).Name ++ " " ++ field.Typ ++ " `js:\"" ++ field.Name ++ "\"`" ])
    lines
  lines ++ [ "\x7d" ]

/-! ## format.go: extracting parameters and classifying an object -/

/-- Function `parseParams` (format.go:290), applied to a function object.  Indexing the `nil`
result of `FindStringSubmatch` panics: `none`. -/
def parseParams (function : Object) : Option VarList :=
  let header := function.String.data
  let header := Regex.ReplaceAllString commentRegexp header []
  match Regex.FindStringSubmatch1 parensRegexp header with
  | none => none
  | some header =>
    let header := TrimSpace header
    if header = [] then some []
    else
      let paramNames := Regex.Split splitRegexp header
      some (paramNames.map (fun param => { Name := String.mk param, Typ := anyType }))

/-- How a call of `Binding.Add` ends: it returns `nil`, it returns an error, or it panics. -/
inductive Outcome where
  | ok
  | error (err : String)
  | panic (msg : String)
deriving DecidableEq, Repr

/-- The result of a call of `Binding.Add`: how it ends, the heap and the binding after it. -/
abbrev AddResult := Outcome × Heap × Binding

/-- The statement `Params: parseParams(&val)` inside a composite literal: when `parseParams`
panics the call ends in that state, otherwise `k` goes on with the parameters. -/
def withParams (function : Object) (h : Heap) (b : Binding) (k : VarList → AddResult) :
    AddResult :=
  match parseParams function with
  | none => (.panic "index out of range", h, b)
  | some params => k params

/-- The statement `b.Add(key, ...)` inside the loop of `Binding.Add`.  The source drops the
`error` that the nested call returns and goes on with the next key (`next`); a panic of the
nested call ends the calling `Add` as well. -/
def afterAdd (nested : AddResult) (next : Heap → Binding → AddResult) : AddResult :=
  match nested with
  | (.panic msg, h, b) => (.panic msg, h, b)
  | (_, h, b) => next h b

mutual
/-- Method `(*Binding).Add` (format.go:209) on a non-nil object.  `objStruct` is allocated at
the next free address of the heap and the keys are then visited in order. -/
def Binding.Add (name : String) (obj : Object) (h : Heap) (b : Binding) : AddResult :=
  match obj with
  | .mk _ _ props _ =>
    Binding.addKeys h.length props
      (h ++ [{ Name := capitialize name, Methods := [], Fields := [] }]) b
/-- The loop `for _, key := range obj.Keys()` of `Binding.Add` and the statements after it;
`objStruct` is the address of the `Struct` being built.  A value is an object exactly when
`IsPrimitive()` is false, so the `switch` is: function (an object of class `Function`),
primitive, array, other object; its `default` case is never reached.  `proto.Object()` is
`nil` when the prototype is no object, and `Add` on it panics at `obj.Keys()`. -/
def Binding.addKeys (objStruct : Nat) : Props → Heap → Binding → AddResult
  | .nil, h, b => (.ok, h, b.addElement (.struct objStruct))
  | .cons _ (.error err) _, h, b => (.error err, h, b)
  | .cons key (.ok (.object (.mk cls text ps proto))) rest, h, b =>
    if cls = "Function" then
      if key = capitialize key then
        withParams (.mk cls text ps proto) h b fun params =>
          let b := b.addElement
            (.method { Name := key, Binding := none, Params := params, Return := none })
          match proto with
          | .error err => (.error err, h, b)
          | .ok (.object protoObj) =>
            afterAdd (Binding.Add key protoObj h b) (Binding.addKeys objStruct rest)
          | .ok _ => (.panic "nil pointer dereference", h, b)
      else if key = "constructor" then Binding.addKeys objStruct rest h b
      else
        withParams (.mk cls text ps proto) h b fun params =>
          Binding.addKeys objStruct rest h
            (b.addElement (.method
              { Name := key, Binding := some objStruct, Params := params,
                Return := some { Name := "", Typ := anyType } }))
    else if cls = "Array" then
      Binding.addKeys objStruct rest
        (h.update objStruct (fun s =>
          { s with Fields := s.Fields ++ [{ Name := key, Typ := "[]" ++ anyType }] })) b
    else
      afterAdd (Binding.Add key (.mk cls text ps proto) h b) (Binding.addKeys objStruct rest)
  | .cons key (.ok val) rest, h, b =>
    Binding.addKeys objStruct rest
      (h.update objStruct (fun s =>
        { s with Fields := s.Fields ++ [({ Name := key, Typ := "" } : Variable).setType val] })) b
end

/-! ## format.go: interfaces, the text of an element, and `Export` -/

/-- The loop of `Interface.Text`: one line per method.  `method.Return.Type` dereferences
`method.Return` without a test for `nil`; for a method without return descriptor this is a
nil pointer dereference, the result `.error`. -/
def Interface.methodLines : List Method → List String → Except String (List String)
  | [], lines => .ok lines
  | method :: rest, lines =>
    match method.Return with
    | none => .error "nil pointer dereference"
    | some ret =>
      Interface.methodLines rest
        (lines ++ [ method.Name ++ "(" ++ VarList.listTypes (VarList.sanitized method.Params) ++
          ") " ++ ret.Typ ])

/-- Method `(*Interface).Text` (format.go:75).  A panic is the result `.error`. -/
def Interface.Text (i : Interface) : Except String (List String) :=
  let lines := [ "type " ++ i.Name ++ " interface \x7b" ]
  match Interface.methodLines i.Methods lines with
  | .error msg => .error msg
  | .ok lines => .ok (lines ++ [ "\x7d" ])

/-- The call `elem.Text()` on a value of the interface `Element`; `.error` is a panic. -/
def Element.Text (h : Heap) : Element → Except String (List String)
  | .iface i => i.Text
  | .struct p => .ok (h.deref p).Text
  | .method m => m.Text h

/-- The constant `packageStmt` (format.go:19). -/
def packageStmt : String := "package"

/-- The constant `importStmt` (format.go:20). -/
def importStmt : String := "import \"github.com/gopherjs/gopherjs/js\""

/-- The destination of `Export` in the file system: `none` when no file of that name exists,
the content of the file otherwise. -/
abbrev File := Option String

/-- The operations of `Export` on the file system that fail: `remove` is a failure of
`os.Remove` other than "does not exist", `create` a failure of `os.Create`, and `write k` a
failure of the `k`-th write to the file, the writes being counted from `0` in the order in
which `Export` issues them.  A write that fails is taken to write nothing. -/
structure Faults where
  remove : Bool
  create : Bool
  write : Nat → Bool

/-- The inner loop of `Export`: `file.WriteString(line + "\n")` for every line.  The result
is the content of the file and, when all writes succeeded, the number of the next write. -/
def writeLines (faults : Faults) : Nat → List String → String → String × Option Nat
  | k, [], content => (content, some k)
  | k, line :: rest, content =>
    if faults.write k then (content, none)
    else writeLines faults (k + 1) rest (content ++ (line ++ "\n"))

/-- The outer loop of `Export` (format.go:53): the text of every element is computed when its
turn comes and written line by line, then `file.WriteString("\n")`, whose error the source
ignores.  A panic of `elem.Text()` ends the call; the deferred `file.Close()` leaves the file
with what has been written. -/
def exportElems (h : Heap) (faults : Faults) : Nat → List Element → String → Outcome × File
  | _, [], content => (.ok, some content)
  | k, elem :: rest, content =>
    match elem.Text h with
    | .error msg => (.panic msg, some content)
    | .ok lines =>
      match writeLines faults k lines content with
      | (content, none) => (.error "write", some content)
      | (content, some k) =>
        exportElems h faults (k + 1) rest
          (if faults.write k then content else content ++ "\n")

/-- Method `(*Binding).Export` (format.go:31) on the destination `file`: how the call ends
and the destination after it.  `os.Remove` of a file that does not exist gives the error that
the source tolerates; `os.Create` makes an empty file; `fmt.Fprintln` writes its operands
separated by a space and a newline. -/
def Binding.Export (b : Binding) (h : Heap) (faults : Faults) (file : File) : Outcome × File :=
  if faults.remove then (.error "remove", file)
  else if faults.create then (.error "create", none)
  else if faults.write 0 then (.error "write", some "")
  else
    let content := packageStmt ++ " " ++ b.name ++ "\n"
    if faults.write 1 then (.error "write", some content)
    else exportElems h faults 2 b.elems (content ++ (importStmt ++ "\n"))

/-- No operation on the file system fails. -/
def noFaults : Faults := { remove := false, create := false, write := fun _ => false }

/-! ## Predicates of the statements on `Binding.Add` -/

mutual
/-- Every call of `Add` in the traversal of the object returns `nil`: every read succeeds,
`parseParams` returns on every function that is visited, and the prototype of every
constructor is an object. -/
def Object.traversable : Object → Bool
  | .mk _ _ props _ => Props.traversable props
/-- The same for the keys of an object, read along the cases of `Binding.addKeys`. -/
def Props.traversable : Props → Bool
  | .nil => true
  | .cons _ (.error _) _ => false
  | .cons key (.ok (.object (.mk cls text ps proto))) rest =>
    (if cls = "Function" then
      if key = capitialize key then
        (parseParams (.mk cls text ps proto)).isSome &&
          (match proto with
            | .ok (.object protoObj) => Object.traversable protoObj
            | _ => false)
      else if key = "constructor" then true
      else (parseParams (.mk cls text ps proto)).isSome
    else if cls = "Array" then true
    else Object.traversable (.mk cls text ps proto)) && Props.traversable rest
  | .cons _ (.ok _) rest => Props.traversable rest
end

/-- The type of a field that the classifier makes: one of the five types. -/
def GoodField (v : Variable) : Prop :=
  v.Typ = "string" ∨ v.Typ = "bool" ∨ v.Typ = "float64" ∨ v.Typ = anyType ∨
    v.Typ = "[]" ++ anyType

/-- A `Struct` as the classifier makes it: no methods, fields of the five types. -/
def GoodCell (s : Struct) : Prop := s.Methods = [] ∧ ∀ f ∈ s.Fields, GoodField f

/-- A `Method` as the classifier makes it: parameters of type `interface{}`; either no owner,
no return and a name that `capitialize` leaves alone, or an owner, the return type
`interface{}` and a name that `capitialize` changes. -/
def GoodMethod (m : Method) : Prop :=
  (∀ v ∈ m.Params, v.Typ = anyType) ∧
  ((m.Binding = none ∧ m.Return = none ∧ capitialize m.Name = m.Name) ∨
   ((∃ q, m.Binding = some q) ∧ m.Return = some { Name := "", Typ := anyType } ∧
     capitialize m.Name ≠ m.Name))

/-- An element as the classifier appends it: a method or a struct, every address in it being
`p` or in the range from `lo` to `hi`. -/
def ElemInv (p lo hi : Nat) : Element → Prop
  | .iface _ => False
  | .struct q => q = p ∨ (lo ≤ q ∧ q < hi)
  | .method m => GoodMethod m ∧ ∀ q, m.Binding = some q → q = p ∨ (lo ≤ q ∧ q < hi)

/-- Every method of the sequence that has an owner is owned by the struct at `p` or by a
struct that comes later in the sequence. -/
def Pending (p : Nat) (elems : List Element) : Prop :=
  ∀ pre m post q, elems = pre ++ Element.method m :: post → m.Binding = some q →
    q = p ∨ Element.struct q ∈ post

/-- What a run of `Binding.addKeys` for the struct `s` at the address `pre.length` does: it
extends the fields of `s`, allocates the cells `cells` behind the heap and appends the
elements `new`; when `t` holds, it returns `nil` and `new` ends with the struct itself. -/
def KeysInv (t : Bool) (pre : Heap) (s : Struct) (post : Heap) (b : Binding)
    (r : AddResult) : Prop :=
  ∃ o fs cells new,
    r = (o, pre ++ { s with Fields := s.Fields ++ fs } :: (post ++ cells),
          { b with elems := b.elems ++ new }) ∧
    (∀ f ∈ fs, GoodField f) ∧ (∀ c ∈ cells, GoodCell c) ∧
    (∀ e ∈ new, ElemInv pre.length (pre.length + 1 + post.length)
      (pre.length + 1 + post.length + cells.length) e) ∧
    (t = true → o = .ok ∧
      ∃ body, new = body ++ [Element.struct pre.length] ∧ Pending pre.length body)

/-- What a call of `Binding.Add` does: it allocates the struct `s` named `capitialize name`
and the cells `cells` behind the heap and appends the elements `new`; when `t` holds, it
returns `nil` and every method with an owner is followed by the struct that owns it. -/
def AddInv (t : Bool) (name : String) (h : Heap) (b : Binding) (r : AddResult) : Prop :=
  ∃ o s cells new,
    r = (o, h ++ s :: cells, { b with elems := b.elems ++ new }) ∧
    s.Name = capitialize name ∧ GoodCell s ∧ (∀ c ∈ cells, GoodCell c) ∧
    (∀ e ∈ new, ElemInv h.length (h.length + 1) (h.length + 1 + cells.length) e) ∧
    (t = true → o = .ok ∧
      ∀ pre m post q, new = pre ++ Element.method m :: post → m.Binding = some q →
        Element.struct q ∈ post)

/-! ## Example objects -/

/-- A function value with the source text `src` and a prototype object with the enumerable
keys `protoKeys`. -/
def functionValue (src : String) (protoKeys : List (String × GetResult)) : Value :=
  .object (.mk "Function" src .nil
    (.ok (.object (.mk "Object" "[object Object]" (Props.ofList protoKeys) (.ok .undefined)))))

/-- A plain object with the enumerable keys `keys`. -/
def plainObject (keys : List (String × GetResult)) : Object :=
  .mk "Object" "[object Object]" (Props.ofList keys) (.ok .undefined)

/-- The object `{Foo: function (x, y) { this.x = x; }}` with
`Foo.prototype.bar = function () {}`. -/
def fooLibrary : Object :=
  plainObject
    [("Foo", .ok (functionValue "function (x, y) \x7b this.x = x; \x7d"
      [("bar", .ok (functionValue "function () \x7b\x7d" []))]))]

/-- The object `{Foo: function (type) {}}`: a parameter named like a keyword of Go. -/
def typeLibrary : Object :=
  plainObject [("Foo", .ok (functionValue "function (type) \x7b\x7d" []))]

/-- The object `{Foo: function () {}}` with `Foo.prototype.bar = function bar() {}`: the
method of the prototype is a named function. -/
def namedMethodLibrary : Object :=
  plainObject
    [("Foo", .ok (functionValue "function () \x7b\x7d"
      [("bar", .ok (functionValue "function bar() \x7b\x7d" []))]))]

/-- The object `{inner: {bad: <getter that throws>}}`. -/
def nestedFailureLibrary : Object :=
  plainObject [("inner", .ok (.object (plainObject [("bad", .error "getter threw")])))]

/-- The object `{Foo: function () {}}` with a getter that throws on `Foo.prototype`. -/
def prototypeFailureLibrary : Object :=
  plainObject
    [("Foo", .ok (functionValue "function () \x7b\x7d" [("bad", .error "getter threw")]))]

/-- The object `{_foo: function () {}, $: function () {}, bar: function () {}}`: two function
keys whose first character is neither an upper-case nor a lower-case letter. -/
def underscoreLibrary : Object :=
  plainObject
    [("_foo", .ok (functionValue "function () \x7b\x7d" [])),
     ("$", .ok (functionValue "function () \x7b\x7d" [])),
     ("bar", .ok (functionValue "function () \x7b\x7d" []))]

/-- The object `{foo: function () {}, bad: <getter that throws>}`. -/
def laterFailureLibrary : Object :=
  plainObject
    [("foo", .ok (functionValue "function () \x7b\x7d" [])), ("bad", .error "getter threw")]

/-- The object `{inner: {foo: function () {}, bad: <getter that throws>}}`. -/
def nestedLaterFailureLibrary : Object :=
  plainObject [("inner", .ok (.object laterFailureLibrary))]

/-- A binding whose second element is an instance method with the return type `bool`. -/
def boolMethodBinding : Binding :=
  { name := "lib",
    elems := [.struct 0,
              .method { Name := "bar", Binding := some 0, Params := [],
                        Return := some { Name := "", Typ := "bool" } }] }

/-! ## Lemmas on joining strings -/

theorem foldl_append_acc (g : Variable → String) (acc : String) (l : List Variable) :
    l.foldl (fun a v => a ++ g v) acc = acc ++ l.foldl (fun a v => a ++ g v) "" := by
  induction l generalizing acc with
  | nil => simp
  | cons x xs ih =>
    simp only [List.foldl_cons]
    rw [ih (acc ++ g x), ih ("" ++ g x)]
    simp [String.append_assoc]

theorem intercalate_go_append (p acc sep : String) (l : List String) :
    String.intercalate.go (p ++ acc) sep l = p ++ String.intercalate.go acc sep l := by
  induction l generalizing acc with
  | nil => simp [String.intercalate.go]
  | cons x xs ih =>
    simp only [String.intercalate.go]
    rw [← ih]
    simp [String.append_assoc]

theorem fold_join_cons (f : Variable → String) (v : Variable) (rest : List Variable) :
    (match (v :: rest).getLast? with
      | none => ""
      | some lastVar =>
        (v :: rest).dropLast.foldl (fun acc v => acc ++ (f v ++ ", ")) "" ++ f lastVar)
      = String.intercalate.go (f v) ", " (rest.map f) := by
  induction rest generalizing v with
  | nil => simp [String.intercalate.go]
  | cons r rs ih =>
    have h := ih r
    rw [List.getLast?_cons_cons, List.dropLast_cons₂, List.foldl_cons,
      foldl_append_acc (fun v => f v ++ ", ")]
    cases hl : (r :: rs).getLast? with
    | none => simp at hl
    | some lastVar =>
      rw [hl] at h
      simp only at h ⊢
      rw [List.map_cons, String.intercalate.go, String.append_assoc, h,
        ← intercalate_go_append]
      simp [String.append_assoc]

/-- The loop shared by `list`, `listNames` and `listTypes` joins the items with `, `. -/
theorem fold_join (f : Variable → String) (vl : VarList) :
    (match vl.getLast? with
      | none => ""
      | some lastVar =>
        vl.dropLast.foldl (fun acc v => acc ++ (f v ++ ", ")) "" ++ f lastVar)
      = ", ".intercalate (vl.map f) := by
  cases vl with
  | nil => simp [String.intercalate]
  | cons v rest => rw [fold_join_cons]; simp [String.intercalate]

theorem VarList.listNames_eq (vl : VarList) :
    VarList.listNames vl = ", ".intercalate (vl.map (fun v => v.Name)) :=
  fold_join (fun v => v.Name) vl

theorem VarList.listTypes_eq (vl : VarList) :
    VarList.listTypes vl = ", ".intercalate (vl.map (fun v => v.Typ)) :=
  fold_join (fun v => v.Typ) vl

theorem VarList.list_eq (vl : VarList) :
    VarList.list vl = ", ".intercalate (vl.map (fun v => v.Name ++ " " ++ v.Typ)) :=
  fold_join (fun v => v.Name ++ " " ++ v.Typ) vl

/-! ## The identifier sanitizer -/

theorem lookup_getD_true_iff (l : List (String × Bool)) (h : ∀ p ∈ l, p.2 = true)
    (a : String) : (l.lookup a).getD false = true ↔ a ∈ l.map Prod.fst := by
  induction l with
  | nil => simp
  | cons p rest ih =>
    obtain ⟨k, b⟩ := p
    have hb : b = true := h (k, b) (List.mem_cons_self _ _)
    have hrest : ∀ q ∈ rest, q.2 = true := fun q hq => h q (List.mem_cons_of_mem _ hq)
    subst hb
    rw [List.lookup_cons]
    by_cases hk : a = k
    · subst hk; simp
    · have : (a == k) = false := by simpa using hk
      simp [this, ih hrest, hk]

/-- The map `reservedKeywords` holds `true` exactly at the 25 keywords of Go. -/
theorem reservedKeywords_iff (name : String) :
    reservedKeywords name = true ↔
      name ∈ ["break", "default", "func", "interface", "select", "case", "defer", "go", "map",
        "struct", "chan", "else", "goto", "package", "switch", "const", "fallthrough", "if",
        "range", "type", "continue", "for", "import", "return", "var"] := by
  unfold reservedKeywords
  rw [lookup_getD_true_iff _ (by decide)]
  rfl

theorem VarList.sanitized_eq_map (vl : VarList) :
    VarList.sanitized vl = vl.map Variable.sanitized := by
  induction vl with
  | nil => rfl
  | cons v rest ih => simp [VarList.sanitized, ih]

/-- No keyword ends in `_`: a suffixed name is not reserved. -/
theorem reservedKeywords_append_underscore (n : String) :
    reservedKeywords (n ++ "_") = false := by
  cases h : reservedKeywords (n ++ "_") with
  | false => rfl
  | true =>
    exfalso
    rw [reservedKeywords_iff] at h
    have hl : (n ++ "_").data.getLast? = some '_' := by
      rw [String.data_append]
      exact List.getLast?_concat _
    simp only [List.mem_cons, List.mem_singleton, List.not_mem_nil] at h
    rcases h with h | h | h | h | h | h | h | h | h | h | h | h | h | h | h | h | h | h | h |
      h | h | h | h | h | h | h
    all_goals first | (rw [h] at hl; revert hl; decide) | exact h

theorem Variable.sanitized_sanitized (v : Variable) : v.sanitized.sanitized = v.sanitized := by
  cases hv : reservedKeywords v.Name with
  | false => simp [Variable.sanitized, hv]
  | true => simp [Variable.sanitized, hv, reservedKeywords_append_underscore]

/-- C1: `Variable.sanitized` keeps the type of the variable; it appends `_` to the name when
the name is one of the 25 keywords of Go and keeps the name otherwise.  `VarList.sanitized`
does this to every element, in order, so the result has the length of the argument.  A
parameter named `type` is listed as `type_ interface{}`. -/
theorem sanitized_spec (v : Variable) (vl : VarList) :
    v.sanitized.Typ = v.Typ ∧
    v.sanitized.Name =
      (if v.Name ∈ ["break", "default", "func", "interface", "select", "case", "defer", "go",
          "map", "struct", "chan", "else", "goto", "package", "switch", "const",
          "fallthrough", "if", "range", "type", "continue", "for", "import", "return", "var"]
        then v.Name ++ "_" else v.Name) ∧
    VarList.sanitized vl = vl.map Variable.sanitized ∧
    (VarList.sanitized vl).length = vl.length ∧
    VarList.list (VarList.sanitized [{ Name := "type", Typ := "interface\x7b\x7d" }]) =
      "type_ interface\x7b\x7d" := by
  refine ⟨rfl, ?_, VarList.sanitized_eq_map vl, ?_, by decide⟩
  · by_cases hk : reservedKeywords v.Name = true
    · rw [if_pos ((reservedKeywords_iff _).mp hk)]
      simp [Variable.sanitized, hk]
    · rw [if_neg (fun hm => hk ((reservedKeywords_iff _).mpr hm))]
      simp [Variable.sanitized, hk]
  · rw [VarList.sanitized_eq_map, List.length_map]

/-- C2: sanitizing is idempotent, on a variable and on a list of variables; `type` becomes
`type_` and `type_` stays `type_`. -/
theorem sanitized_idempotent (v : Variable) (vl : VarList) (t : String) :
    v.sanitized.sanitized = v.sanitized ∧
    VarList.sanitized (VarList.sanitized vl) = VarList.sanitized vl ∧
    Variable.sanitized { Name := "type", Typ := t } = { Name := "type_", Typ := t } ∧
    Variable.sanitized { Name := "type_", Typ := t } = { Name := "type_", Typ := t } := by
  refine ⟨Variable.sanitized_sanitized v, ?_, ?_, ?_⟩
  · rw [VarList.sanitized_eq_map, VarList.sanitized_eq_map, List.map_map]
    apply List.map_congr_left
    intro a _
    exact Variable.sanitized_sanitized a
  · have h : reservedKeywords "type" = true := by decide
    simp [Variable.sanitized, h]
  · have h : reservedKeywords "type_" = false := by decide
    simp [Variable.sanitized, h]

/-! ## The renderer: `Struct.Text` and `Method.Text` -/

theorem toUpper_not_lower (c : Char) : ¬ (97 ≤ c.toUpper.toNat ∧ c.toUpper.toNat ≤ 122) := by
  unfold Char.toUpper
  simp only
  split
  · rename_i h
    obtain ⟨h1, h2⟩ := h
    have hc : c = Char.ofNat c.toNat := (Char.ofNat_toNat c).symm
    generalize c.toNat = n at h1 h2 hc
    interval_cases n <;> decide
  · rename_i h
    exact h

/-- Every keyword starts with a lower-case letter, a capitalized name never does. -/
theorem capitialize_not_reserved (s : String) : reservedKeywords (capitialize s) = false := by
  cases h : reservedKeywords (capitialize s) with
  | false => rfl
  | true =>
    exfalso
    rw [reservedKeywords_iff] at h
    unfold capitialize at h
    split at h
    · rename_i hd
      have hs : s = "" := String.ext hd
      subst hs
      revert h; decide
    · rename_i c cs hd
      have hu := toUpper_not_lower c
      simp only [List.mem_cons, List.mem_singleton, List.not_mem_nil] at h
      rcases h with h | h | h | h | h | h | h | h | h | h | h | h | h | h | h | h | h | h | h |
        h | h | h | h | h | h | h
      all_goals first
        | exact h
        | (have h2 := congrArg String.data h
           simp only [List.cons.injEq] at h2
           rw [h2.1] at hu
           revert hu; decide)

theorem foldl_lines (g : Variable → String) (init : List String) (fs : List Variable) :
    fs.foldl (fun lines field => lines ++ [g field]) init = init ++ fs.map g := by
  induction fs generalizing init with
  | nil => simp
  | cons f rest ih => simp [ih]

/-- The text of a `Struct`: header, the embedded `js.Object`, one line per field, `}`. -/
theorem Struct.Text_eq (s : Struct) :
    Struct.Text s =
      [ "type " ++ s.Name ++ " struct \x7b", "js.Object" ] ++
        s.Fields.map (fun f =>
          capitialize f.Name ++ " " ++ f.Typ ++ " `js:\"" ++ f.Name ++ "\"`") ++
        [ "\x7d" ] := by
  unfold Struct.Text
  simp only [Variable.capitialized]
  rw [foldl_lines (fun f => capitialize f.Name ++ " " ++ f.Typ ++ " `js:\"" ++ f.Name ++ "\"`")]

/-- C7, as the code has it: the line of the `i`-th field of a `Struct` is the capitalized
name of the field (first character upper-cased), a space, the type and the tag.  Nothing is
appended to the capitalized name, and sanitizing the capitalized name would not change it,
because no capitalized name is a keyword. -/
theorem struct_field_line_capitalized (s : Struct) (i : Nat) (f : Variable)
    (hf : s.Fields[i]? = some f) :
    (Struct.Text s)[i + 2]? =
      some (capitialize f.Name ++ " " ++ f.Typ ++ " `js:\"" ++ f.Name ++ "\"`") ∧
    f.capitialized.sanitized = f.capitialized := by
  constructor
  · rw [Struct.Text_eq, List.append_assoc]
    rw [List.getElem?_append_right (by simp)]
    simp only [List.length_cons, List.length_nil, Nat.add_sub_cancel]
    have hlt : i < s.Fields.length := by
      rcases Nat.lt_or_ge i s.Fields.length with h | h
      · exact h
      · rw [List.getElem?_eq_none h] at hf; cases hf
    rw [List.getElem?_append_left (by simpa using hlt)]
    simp [hf]
  · simp [Variable.sanitized, Variable.capitialized, capitialize_not_reserved]

/-- Witness of `struct_field_line_capitalized`: the field with key `type`. -/
theorem struct_field_line_capitalized_witness :
    (Struct.Text
        { Name := "Lib", Methods := [], Fields := [{ Name := "type", Typ := "string" }] })[0 + 2]? =
      some (capitialize "type" ++ " " ++ "string" ++ " `js:\"" ++ "type" ++ "\"`") ∧
    (Variable.capitialized { Name := "type", Typ := "string" }).sanitized =
      Variable.capitialized { Name := "type", Typ := "string" } :=
  struct_field_line_capitalized
    { Name := "Lib", Methods := [], Fields := [{ Name := "type", Typ := "string" }] } 0
    { Name := "type", Typ := "string" } rfl

/-- C7, counterexample: the fields with keys `class` and `type` are rendered as `Class` and
`Type`; their lines do not begin with `Class_` and `Type_`. -/
theorem struct_field_class_not_suffixed :
    Struct.Text
        { Name := "Lib", Methods := [],
          Fields := [{ Name := "class", Typ := "string" }, { Name := "type", Typ := "string" }] } =
      [ "type Lib struct \x7b", "js.Object", "Class string `js:\"class\"`",
        "Type string `js:\"type\"`", "\x7d" ] ∧
    List.isPrefixOf "Class_".data "Class string `js:\"class\"`".data = false ∧
    List.isPrefixOf "Type_".data "Type string `js:\"type\"`".data = false := by
  decide

/-- C8: the text of a `Struct` with fields `f1..fn` is the header `type <Name> struct {`, the
line `js.Object`, one line per field in list order and the line `}`: `n + 3` lines.  The line
of a field is its capitalized name, its type unchanged, and the tag that carries the original
key. -/
theorem struct_text_spec (s : Struct) :
    Struct.Text s =
      [ "type " ++ s.Name ++ " struct \x7b", "js.Object" ] ++
        s.Fields.map (fun f =>
          capitialize f.Name ++ " " ++ f.Typ ++ " " ++ ("`js:\"" ++ f.Name ++ "\"`")) ++
        [ "\x7d" ] ∧
    (Struct.Text s).length = s.Fields.length + 3 := by
  have h := Struct.Text_eq s
  have e : (" `js:\"" : String) = " " ++ "`js:\"" := by decide
  constructor
  · rw [h, e]
    simp only [String.append_assoc]
  · rw [h]
    simp

theorem Method.Text_constructor (h : Heap) (m : Method) (hc : capitialize m.Name = m.Name) :
    Method.Text h m = .ok m.genConstructor := by
  simp [Method.Text, hc]

theorem Method.Text_noReturn (h : Heap) (m : Method) (hc : capitialize m.Name ≠ m.Name)
    (hr : m.Return = none) :
    Method.Text h m = .ok
      [ "func " ++ (match m.Binding with
            | none => ""
            | some p => "(self *" ++ (h.deref p).Name ++ ")") ++ " " ++ capitialize m.Name ++
          "(" ++ VarList.list (VarList.sanitized m.Params) ++ ") " ++ anyType ++ " \x7b",
        "self.Call(\"" ++ m.Name ++ "\", " ++ VarList.listNames (VarList.sanitized m.Params) ++
          ")",
        "\x7d" ] := by
  simp [Method.Text, hc, hr]

theorem Method.Text_return (h : Heap) (m : Method) (ret : Variable)
    (hc : capitialize m.Name ≠ m.Name) (hr : m.Return = some ret) :
    Method.Text h m =
      match Method.genCastObject
          ("self.Call(\"" ++ m.Name ++ "\", " ++
            VarList.listNames (VarList.sanitized m.Params) ++ ")") ret.Typ with
      | .error err => .error err
      | .ok castedObj => .ok
        [ "func " ++ (match m.Binding with
              | none => ""
              | some p => "(self *" ++ (h.deref p).Name ++ ")") ++ " " ++ capitialize m.Name ++
            "(" ++ VarList.list (VarList.sanitized m.Params) ++ ") " ++ anyType ++ " \x7b",
          "return " ++ castedObj,
          "\x7d" ] := by
  simp only [Method.Text, hc, hr, if_false]
  cases Method.genCastObject
      ("self.Call(\"" ++ m.Name ++ "\", " ++
        VarList.listNames (VarList.sanitized m.Params) ++ ")") ret.Typ <;> simp

theorem header_tail (x : String) :
    x ++ ") " ++ anyType ++ " \x7b" = x ++ ") interface\x7b\x7d \x7b" := by
  have e : ") " ++ (anyType ++ " \x7b") = ") interface\x7b\x7d \x7b" := by decide
  rw [String.append_assoc, String.append_assoc, e]

/-- C9, as the code has it: in the constructor form and in the instance form the arguments
that the body forwards are the sanitized parameter names joined by `, `, the names that the
header declares (there followed by their types). -/
theorem forwarded_args_are_sanitized (h : Heap) (m : Method) :
    (capitialize m.Name = m.Name →
      Method.Text h m = .ok
        [ "func New" ++ m.Name ++ "(" ++
            ", ".intercalate ((VarList.sanitized m.Params).map
              (fun v => v.Name ++ " " ++ v.Typ)) ++ ") *" ++ m.Name ++ " \x7b",
          "return js.Global.Get(\"" ++ m.Name ++ "\").New(" ++
            ", ".intercalate ((VarList.sanitized m.Params).map (fun v => v.Name)) ++ ")",
          "\x7d" ]) ∧
    (capitialize m.Name ≠ m.Name → m.Return = none →
      Method.Text h m = .ok
        [ "func " ++ (match m.Binding with
              | none => ""
              | some p => "(self *" ++ (h.deref p).Name ++ ")") ++ " " ++ capitialize m.Name ++
            "(" ++ ", ".intercalate ((VarList.sanitized m.Params).map
              (fun v => v.Name ++ " " ++ v.Typ)) ++ ") interface\x7b\x7d \x7b",
          "self.Call(\"" ++ m.Name ++ "\", " ++
            ", ".intercalate ((VarList.sanitized m.Params).map (fun v => v.Name)) ++ ")",
          "\x7d" ]) ∧
    (capitialize m.Name ≠ m.Name → ∀ ret lines, m.Return = some ret →
      Method.Text h m = .ok lines →
      ∃ header conversion, lines =
        [ header,
          "return self.Call(\"" ++ m.Name ++ "\", " ++
            ", ".intercalate ((VarList.sanitized m.Params).map (fun v => v.Name)) ++ ")" ++
            conversion,
          "\x7d" ]) := by
  refine ⟨fun hc => ?_, fun hc hr => ?_, fun hc ret lines hr ht => ?_⟩
  · rw [Method.Text_constructor h m hc, Method.genConstructor, VarList.list_eq,
      VarList.listNames_eq]
  · rw [Method.Text_noReturn h m hc hr, VarList.list_eq, VarList.listNames_eq, header_tail]
  · rw [Method.Text_return h m ret hc hr] at ht
    rw [← VarList.listNames_eq]
    unfold Method.genCastObject at ht
    split_ifs at ht
    · exact ⟨_, ".Float()", by simpa [String.append_assoc] using ht.symm⟩
    · exact ⟨_, ".Int()", by simpa [String.append_assoc] using ht.symm⟩
    · exact ⟨_, ".Str()", by simpa [String.append_assoc] using ht.symm⟩
    · exact ⟨_, ".Interface()", by simpa [String.append_assoc] using ht.symm⟩

/-- Witness of `forwarded_args_are_sanitized`: a constructor and an instance method with a
parameter named `type`. -/
theorem forwarded_args_are_sanitized_witness :
    Method.Text [] { Name := "Foo", Binding := none,
                     Params := [{ Name := "type", Typ := "interface\x7b\x7d" }],
                     Return := none } = .ok
      [ "func NewFoo(type_ interface\x7b\x7d) *Foo \x7b",
        "return js.Global.Get(\"Foo\").New(type_)", "\x7d" ] ∧
    Method.Text [{ Name := "Foo", Methods := [], Fields := [] }]
        { Name := "bar", Binding := some 0,
          Params := [{ Name := "type", Typ := "interface\x7b\x7d" }],
          Return := none } = .ok
      [ "func (self *Foo) Bar(type_ interface\x7b\x7d) interface\x7b\x7d \x7b",
        "self.Call(\"bar\", type_)", "\x7d" ] :=
  ⟨(forwarded_args_are_sanitized [] _).1 (by decide),
   (forwarded_args_are_sanitized [{ Name := "Foo", Methods := [], Fields := [] }] _).2.1
      (by decide) rfl⟩

/-- C9, counterexample: for a parameter named `type` the body forwards `type_`, in the
constructor form and in the instance form; it does not forward the original name `type`. -/
theorem forwarded_args_not_original :
    Method.Text [] { Name := "Foo", Binding := none,
                     Params := [{ Name := "type", Typ := "interface\x7b\x7d" }],
                     Return := none } = .ok
      [ "func NewFoo(type_ interface\x7b\x7d) *Foo \x7b",
        "return js.Global.Get(\"Foo\").New(type_)", "\x7d" ] ∧
    Method.Text [] { Name := "Foo", Binding := none,
                     Params := [{ Name := "type", Typ := "interface\x7b\x7d" }],
                     Return := none } ≠ .ok
      [ "func NewFoo(type_ interface\x7b\x7d) *Foo \x7b",
        "return js.Global.Get(\"Foo\").New(type)", "\x7d" ] ∧
    Method.Text [{ Name := "Foo", Methods := [], Fields := [] }]
        { Name := "bar", Binding := some 0,
          Params := [{ Name := "type", Typ := "interface\x7b\x7d" }],
          Return := some { Name := "", Typ := "interface\x7b\x7d" } } = .ok
      [ "func (self *Foo) Bar(type_ interface\x7b\x7d) interface\x7b\x7d \x7b",
        "return self.Call(\"bar\", type_).Interface()", "\x7d" ] ∧
    Method.Text [{ Name := "Foo", Methods := [], Fields := [] }]
        { Name := "bar", Binding := some 0,
          Params := [{ Name := "type", Typ := "interface\x7b\x7d" }],
          Return := some { Name := "", Typ := "interface\x7b\x7d" } } ≠ .ok
      [ "func (self *Foo) Bar(type_ interface\x7b\x7d) interface\x7b\x7d \x7b",
        "return self.Call(\"bar\", type).Interface()", "\x7d" ] := by
  decide

theorem genCastObject_ok_iff (obj goType : String) :
    (∃ casted, Method.genCastObject obj goType = .ok casted) ↔
      goType ∈ ["string", "float64", "int", "interface\x7b\x7d"] := by
  have ha : anyType = "interface\x7b\x7d" := rfl
  unfold Method.genCastObject
  rw [ha]
  split_ifs <;> simp_all

theorem return_call (x : String) :
    "return " ++ ("self.Call(\"" ++ x) = "return self.Call(\"" ++ x := by
  rw [← String.append_assoc]
  rfl

/-- C10: for a method in the instance form (its name is not capitalized) with a declared
return type `T`, `Text` succeeds exactly when `T` is `string`, `float64`, `int` or
`interface{}`; the body is then `return self.Call("<Name>", <args>)` followed by `.Str()`,
`.Float()`, `.Int()` or `.Interface()`, the key of the call being the name as it is.  For
every other `T` the call fails with the error of `genCastObject` and yields no lines. -/
theorem return_type_mapping (h : Heap) (m : Method) (ret : Variable)
    (hc : capitialize m.Name ≠ m.Name) (hr : m.Return = some ret) :
    ((∃ lines, Method.Text h m = .ok lines) ↔
      ret.Typ ∈ ["string", "float64", "int", "interface\x7b\x7d"]) ∧
    (∀ conversion,
      (ret.Typ = "string" ∧ conversion = ".Str()") ∨
      (ret.Typ = "float64" ∧ conversion = ".Float()") ∨
      (ret.Typ = "int" ∧ conversion = ".Int()") ∨
      (ret.Typ = "interface\x7b\x7d" ∧ conversion = ".Interface()") →
      Method.Text h m = .ok
        [ "func " ++ (match m.Binding with
              | none => ""
              | some p => "(self *" ++ (h.deref p).Name ++ ")") ++ " " ++ capitialize m.Name ++
            "(" ++ VarList.list (VarList.sanitized m.Params) ++ ") interface\x7b\x7d \x7b",
          "return self.Call(\"" ++ m.Name ++ "\", " ++
            ", ".intercalate ((VarList.sanitized m.Params).map (fun v => v.Name)) ++ ")" ++
            conversion,
          "\x7d" ]) ∧
    (ret.Typ ∉ ["string", "float64", "int", "interface\x7b\x7d"] →
      Method.Text h m =
        .error "Function may only return float64, int, string, or interface\x7b\x7d") := by
  have ht := Method.Text_return h m ret hc hr
  have ha : anyType = "interface\x7b\x7d" := rfl
  refine ⟨?_, ?_, ?_⟩
  · rw [← genCastObject_ok_iff ("self.Call(\"" ++ m.Name ++ "\", " ++
      VarList.listNames (VarList.sanitized m.Params) ++ ")") ret.Typ, ht]
    cases Method.genCastObject ("self.Call(\"" ++ m.Name ++ "\", " ++
      VarList.listNames (VarList.sanitized m.Params) ++ ")") ret.Typ <;> simp
  · intro conversion hcase
    rw [ht, ← VarList.listNames_eq, ← header_tail]
    rcases hcase with ⟨h1, h2⟩ | ⟨h1, h2⟩ | ⟨h1, h2⟩ | ⟨h1, h2⟩ <;>
      simp [Method.genCastObject, h1, h2, ha, String.append_assoc, return_call]
  · intro hn
    rw [ht]
    simp only [List.mem_cons, List.mem_singleton, List.not_mem_nil, or_false, not_or] at hn
    obtain ⟨h1, h2, h3, h4⟩ := hn
    simp [Method.genCastObject, h1, h2, h3, h4, ha]

/-- Witness of `return_type_mapping`: an instance method `bar` that returns a `string`. -/
theorem return_type_mapping_witness :
    Method.Text [{ Name := "Foo", Methods := [], Fields := [] }]
        { Name := "bar", Binding := some 0, Params := [{ Name := "x", Typ := "interface\x7b\x7d" }],
          Return := some { Name := "", Typ := "string" } } = .ok
      [ "func (self *Foo) Bar(x interface\x7b\x7d) interface\x7b\x7d \x7b",
        "return self.Call(\"bar\", x).Str()", "\x7d" ] :=
  (return_type_mapping [{ Name := "Foo", Methods := [], Fields := [] }]
      { Name := "bar", Binding := some 0, Params := [{ Name := "x", Typ := "interface\x7b\x7d" }],
        Return := some { Name := "", Typ := "string" } }
      { Name := "", Typ := "string" } (by decide) rfl).2.1 ".Str()" (Or.inl ⟨rfl, rfl⟩)

/-! ## The classifier `Binding.Add` -/

theorem Heap.update_at (pre post : Heap) (s : Struct) (f : Struct → Struct) :
    Heap.update (pre ++ s :: post) pre.length f = pre ++ f s :: post := by
  unfold Heap.update
  have h1 : (pre ++ s :: post).get? pre.length = some s := by
    rw [List.get?_eq_getElem?, List.getElem?_append_right (Nat.le_refl _)]
    simp
  rw [h1]
  simp

theorem Heap.deref_at (pre post : Heap) (s : Struct) :
    Heap.deref (pre ++ s :: post) pre.length = s := by
  unfold Heap.deref
  rw [List.getD_eq_getElem?_getD, List.getElem?_append_right (Nat.le_refl _)]
  simp

/-- The guards of the `switch` in `Binding.Add`, read on the shape of the value: a value is a
function exactly when it is an object of class `Function`, it is primitive exactly when it
is no object, and an object that is neither a function nor primitive reaches the guards
`val.Class() == "Array"` and `val.IsObject()`; so no value reaches the `default` case. -/
theorem Value.switch_guards (val : Value) :
    (val.IsFunction = true ↔
      ∃ text ps proto, val = .object (.mk "Function" text ps proto)) ∧
    (val.IsPrimitive = true ↔ ∀ o, val ≠ .object o) ∧
    (val.IsFunction = false → val.IsPrimitive = false → val.IsObject = true) := by
  cases val with
  | object o =>
    obtain ⟨cls, text, ps, proto⟩ := o
    refine ⟨⟨fun h => ?_, fun h => ?_⟩, ⟨fun h => ?_, fun h => ?_⟩, fun _ _ => rfl⟩
    · have hc : cls = "Function" := by simpa [Value.IsFunction, Value.IsObject, Value.Class] using h
      exact ⟨text, ps, proto, by rw [hc]⟩
    · obtain ⟨t, p, q, he⟩ := h
      cases he
      simp [Value.IsFunction, Value.IsObject, Value.Class]
    · exact Bool.noConfusion h
    · exact absurd rfl (h _)
  | _ =>
    refine ⟨⟨fun h => Bool.noConfusion h, fun h => ?_⟩, ⟨fun _ o ho => ?_, fun _ => rfl⟩,
      fun _ h => Bool.noConfusion h⟩
    · obtain ⟨t, p, q, he⟩ := h
      cases he
    · cases ho

theorem addKeys_nil (p : Nat) (h : Heap) (b : Binding) :
    Binding.addKeys p .nil h b = (.ok, h, b.addElement (.struct p)) := rfl

theorem addKeys_error (p : Nat) (key err : String) (rest : Props) (h : Heap) (b : Binding) :
    Binding.addKeys p (.cons key (.error err) rest) h b = (.error err, h, b) := rfl

theorem addKeys_primitive_update (p : Nat) (key : String) (val : Value)
    (hv : val.IsObject = false) (rest : Props) (h : Heap) (b : Binding) :
    Binding.addKeys p (.cons key (.ok val) rest) h b =
      Binding.addKeys p rest
        (h.update p (fun s =>
          { s with Fields := s.Fields ++
              [({ Name := key, Typ := "" } : Variable).setType val] })) b := by
  cases val with
  | object o => exact Bool.noConfusion hv
  | _ => rfl

/-- A key that holds a primitive appends one field to the struct under construction. -/
theorem addKeys_primitive (key : String) (val : Value) (hv : val.IsObject = false)
    (rest : Props) (pre post : Heap) (s : Struct) (b : Binding) :
    Binding.addKeys pre.length (.cons key (.ok val) rest) (pre ++ s :: post) b =
      Binding.addKeys pre.length rest
        (pre ++ { s with Fields := s.Fields ++
            [({ Name := key, Typ := "" } : Variable).setType val] } :: post) b := by
  rw [addKeys_primitive_update _ key val hv, Heap.update_at]

theorem addKeys_scalars (kvs : List (String × Value))
    (hs : ∀ kv ∈ kvs, kv.2 = .string ∨ kv.2 = .boolean ∨ kv.2 = .number)
    (pre post : Heap) (s : Struct) (b : Binding) :
    Binding.addKeys pre.length (Props.ofList (kvs.map (fun kv => (kv.1, GetResult.ok kv.2))))
        (pre ++ s :: post) b =
      (.ok,
       pre ++ { s with Fields := s.Fields ++ kvs.map (fun kv =>
          { Name := kv.1,
            Typ := match kv.2 with
              | .string => "string"
              | .boolean => "bool"
              | _ => "float64" }) } :: post,
       b.addElement (.struct pre.length)) := by
  induction kvs generalizing s with
  | nil => simp [Props.ofList, addKeys_nil]
  | cons kv rest ih =>
    obtain ⟨key, val⟩ := kv
    have hrest : ∀ kv ∈ rest, kv.2 = .string ∨ kv.2 = .boolean ∨ kv.2 = .number :=
      fun kv hkv => hs kv (List.mem_cons_of_mem _ hkv)
    have hval := hs (key, val) (List.mem_cons_self _ _)
    simp only [List.map_cons, Props.ofList]
    rw [addKeys_primitive key val (by rcases hval with h | h | h <;> simp_all [Value.IsObject]),
      ih hrest]
    rcases hval with h | h | h <;>
      simp_all [Variable.setType, Value.IsString, Value.IsBoolean, Value.IsNumber]

/-- C4: for an object whose keys `k1..kn` all hold a string, a boolean or a number,
`Binding.Add(name, obj)` on a fresh `Binding` returns `nil` and leaves one element, the
`Struct` named `capitialize(name)`, with no methods and with `n` fields: the `i`-th field has
the name `ki` and the type `string`, `bool` or `float64` of the kind of its value. -/
theorem add_scalar_object (name pkg cls text : String) (proto : GetResult) (h : Heap)
    (kvs : List (String × Value))
    (hs : ∀ kv ∈ kvs, kv.2 = .string ∨ kv.2 = .boolean ∨ kv.2 = .number) :
    Binding.Add name
        (.mk cls text (Props.ofList (kvs.map (fun kv => (kv.1, GetResult.ok kv.2)))) proto)
        h (New pkg) =
      (.ok,
       h ++ [{ Name := capitialize name, Methods := [],
               Fields := kvs.map (fun kv =>
                { Name := kv.1,
                  Typ := match kv.2 with
                    | .string => "string"
                    | .boolean => "bool"
                    | _ => "float64" }) }],
       { name := pkg, elems := [.struct h.length] }) := by
  show Binding.addKeys h.length _ (h ++ [_]) _ = _
  rw [addKeys_scalars kvs hs h []]
  simp [New, Binding.addElement]

/-- Witness of `add_scalar_object`: the object `{title: "x", ok: true, size: 3}`. -/
theorem add_scalar_object_witness :
    Binding.Add "lib"
        (.mk "Object" "[object Object]"
          (Props.ofList [("title", .ok .string), ("ok", .ok .boolean), ("size", .ok .number)])
          (.ok .undefined))
        [] (New "lib") =
      (.ok,
       [{ Name := "Lib", Methods := [],
          Fields := [{ Name := "title", Typ := "string" }, { Name := "ok", Typ := "bool" },
                     { Name := "size", Typ := "float64" }] }],
       { name := "lib", elems := [.struct 0] }) :=
  add_scalar_object "lib" "lib" "Object" "[object Object]" (.ok .undefined) []
    [("title", .string), ("ok", .boolean), ("size", .number)] (by simp)

/-- The equation of `Binding.addKeys` at a key that holds an object. -/
theorem addKeys_object (objStruct : Nat) (key cls text : String) (ps : Props)
    (proto : GetResult) (rest : Props) (h : Heap) (b : Binding) :
    Binding.addKeys objStruct (.cons key (.ok (.object (.mk cls text ps proto))) rest) h b =
      if cls = "Function" then
        if key = capitialize key then
          withParams (.mk cls text ps proto) h b fun params =>
            match proto with
            | .error err =>
              (.error err, h, b.addElement
                (.method { Name := key, Binding := none, Params := params, Return := none }))
            | .ok (.object protoObj) =>
              afterAdd (Binding.Add key protoObj h (b.addElement
                (.method { Name := key, Binding := none, Params := params, Return := none })))
                (Binding.addKeys objStruct rest)
            | .ok _ =>
              (.panic "nil pointer dereference", h, b.addElement
                (.method { Name := key, Binding := none, Params := params, Return := none }))
        else if key = "constructor" then Binding.addKeys objStruct rest h b
        else
          withParams (.mk cls text ps proto) h b fun params =>
            Binding.addKeys objStruct rest h
              (b.addElement (.method
                { Name := key, Binding := some objStruct, Params := params,
                  Return := some { Name := "", Typ := anyType } }))
      else if cls = "Array" then
        Binding.addKeys objStruct rest
          (h.update objStruct (fun s =>
            { s with Fields := s.Fields ++ [{ Name := key, Typ := "[]" ++ anyType }] })) b
      else
        afterAdd (Binding.Add key (.mk cls text ps proto) h b)
          (Binding.addKeys objStruct rest) := by
  cases proto with
  | error err => rfl
  | ok val => cases val <;> rfl

theorem Binding.Add_eq (name cls text : String) (props : Props) (proto : GetResult)
    (h : Heap) (b : Binding) :
    Binding.Add name (.mk cls text props proto) h b =
      Binding.addKeys h.length props
        (h ++ [{ Name := capitialize name, Methods := [], Fields := [] }]) b := rfl

theorem isLower_toNat (c : Char) (h : c.isLower = true) : 97 ≤ c.toNat ∧ c.toNat ≤ 122 := by
  simp only [Char.isLower, Bool.and_eq_true, decide_eq_true_eq] at h
  exact ⟨h.1, h.2⟩

theorem isUpper_toNat (c : Char) (h : c.isUpper = true) : 65 ≤ c.toNat ∧ c.toNat ≤ 90 := by
  simp only [Char.isUpper, Bool.and_eq_true, decide_eq_true_eq] at h
  exact ⟨h.1, h.2⟩

/-- A name that starts with a lower-case letter differs from its capitalized form. -/
theorem capitialize_ne_of_lower (k : String) (c : Char) (cs : List Char)
    (hd : k.data = c :: cs) (hl : c.isLower = true) : k ≠ capitialize k := by
  intro he
  have h1 := congrArg String.data he
  unfold capitialize at h1
  rw [hd] at h1
  simp only [List.cons.injEq, and_true] at h1
  have h2 := toUpper_not_lower c
  rw [← h1] at h2
  exact h2 (isLower_toNat c hl)

/-- A name that starts with an upper-case letter is its own capitalized form. -/
theorem capitialize_eq_of_upper (k : String) (c : Char) (cs : List Char)
    (hd : k.data = c :: cs) (hu : c.isUpper = true) : capitialize k = k := by
  apply String.ext
  unfold capitialize
  rw [hd]
  have h := isUpper_toNat c hu
  have : c.toUpper = c := by
    unfold Char.toUpper
    simp only
    rw [if_neg]
    omega
  simp [this]

theorem afterAdd_ok (h : Heap) (b : Binding) (next : Heap → Binding → AddResult) :
    afterAdd (.ok, h, b) next = next h b := rfl

theorem afterAdd_error (err : String) (h : Heap) (b : Binding)
    (next : Heap → Binding → AddResult) :
    afterAdd (.error err, h, b) next = next h b := rfl

/-- The keys of a prototype that hold lower-case functions: one method each, owned by the
struct under construction, and then the struct itself. -/
theorem addKeys_methods (p : Nat) (ms : List (String × Object))
    (hm : ∀ kf ∈ ms,
      (∃ text ps proto, kf.2 = Object.mk "Function" text ps proto) ∧
      (∃ c cs, kf.1.data = c :: cs ∧ c.isLower = true) ∧
      kf.1 ≠ "constructor" ∧ (parseParams kf.2).isSome = true)
    (h : Heap) (b : Binding) :
    Binding.addKeys p
        (Props.ofList (ms.map (fun kf => (kf.1, GetResult.ok (Value.object kf.2))))) h b =
      (.ok, h,
       { b with elems := b.elems ++ ms.map (fun kf => Element.method
          { Name := kf.1, Binding := some p, Params := (parseParams kf.2).getD [],
            Return := some { Name := "", Typ := anyType } }) ++ [.struct p] }) := by
  induction ms generalizing b with
  | nil => simp [Props.ofList, addKeys_nil, Binding.addElement]
  | cons kf rest ih =>
    obtain ⟨key, fn⟩ := kf
    have hrest := fun kf hkf => hm kf (List.mem_cons_of_mem _ hkf)
    obtain ⟨⟨text, ps, proto, hfn⟩, ⟨c, cs, hd, hl⟩, hcon, hpar⟩ :=
      hm (key, fn) (List.mem_cons_self _ _)
    simp only at hfn hd hcon hpar
    subst hfn
    obtain ⟨params, hparams⟩ := Option.isSome_iff_exists.mp hpar
    simp only [List.map_cons, Props.ofList]
    rw [addKeys_object, if_pos rfl, if_neg (capitialize_ne_of_lower key c cs hd hl),
      if_neg hcon, withParams, hparams]
    simp only
    rw [ih hrest]
    simp [Binding.addElement, hparams]

/-- C5, as the code has it: an object with the single key `K`, which starts with an upper-case
letter and holds a function from whose source `parseParams` extracts `p1..pn`, and whose
prototype has the keys `m1..mj`, lower-case functions other than `constructor` whose sources
`parseParams` handles.  `Binding.Add(name, obj)` returns `nil` and appends, in this order: the
Method `K` without owner, with the parameters `p1..pn` and without return; one Method per
`mi`, owned by the Struct named `K` (the second conjunct reads the owner's name through the
pointer); that Struct; the Struct named `capitialize(name)`.  The
first line of the constructor lists the sanitized parameter names; it lists `p1..pn`
themselves when none of them is a keyword. -/
theorem constructor_synthesis (name K cls text fnText protoCls protoText : String)
    (fnProps : Props) (objProto protoProto : GetResult) (names : List String)
    (ms : List (String × Object)) (protoObj fn : Object) (h : Heap) (b : Binding)
    (hproto : protoObj = .mk protoCls protoText
      (Props.ofList (ms.map (fun kf => (kf.1, GetResult.ok (Value.object kf.2))))) protoProto)
    (hfn : fn = .mk "Function" fnText fnProps (.ok (.object protoObj)))
    (hK : ∃ c cs, K.data = c :: cs ∧ c.isUpper = true)
    (hparams : parseParams fn = some (names.map (fun n => { Name := n, Typ := anyType })))
    (hm : ∀ kf ∈ ms,
      (∃ text ps proto, kf.2 = Object.mk "Function" text ps proto) ∧
      (∃ c cs, kf.1.data = c :: cs ∧ c.isLower = true) ∧
      kf.1 ≠ "constructor" ∧ (parseParams kf.2).isSome = true) :
    Binding.Add name (.mk cls text (.cons K (.ok (.object fn)) .nil) objProto) h b =
      (.ok,
       h ++ [{ Name := capitialize name, Methods := [], Fields := [] },
             { Name := K, Methods := [], Fields := [] }],
       { b with elems := b.elems ++
          [.method { Name := K, Binding := none,
                     Params := names.map (fun n => { Name := n, Typ := anyType }),
                     Return := none }] ++
          ms.map (fun kf => Element.method
            { Name := kf.1, Binding := some (h.length + 1),
              Params := (parseParams kf.2).getD [],
              Return := some { Name := "", Typ := anyType } }) ++
          [.struct (h.length + 1), .struct h.length] }) ∧
    (Heap.deref (h ++ [{ Name := capitialize name, Methods := [], Fields := [] },
                      { Name := K, Methods := [], Fields := [] }]) (h.length + 1)).Name = K ∧
    (∀ heap, Method.Text heap
        { Name := K, Binding := none,
          Params := names.map (fun n => { Name := n, Typ := anyType }), Return := none } =
      .ok
        [ "func New" ++ K ++ "(" ++
            ", ".intercalate (names.map (fun n =>
              (Variable.sanitized { Name := n, Typ := anyType }).Name ++
                " interface\x7b\x7d")) ++
            ") *" ++ K ++ " \x7b",
          "return js.Global.Get(\"" ++ K ++ "\").New(" ++
            ", ".intercalate (names.map (fun n =>
              (Variable.sanitized { Name := n, Typ := anyType }).Name)) ++ ")",
          "\x7d" ]) ∧
    ((∀ n ∈ names, reservedKeywords n = false) →
      ", ".intercalate (names.map (fun n =>
          (Variable.sanitized { Name := n, Typ := anyType }).Name ++ " interface\x7b\x7d")) =
        ", ".intercalate (names.map (fun n => n ++ " interface\x7b\x7d"))) := by
  obtain ⟨c, cs, hd, hu⟩ := hK
  have hcap := capitialize_eq_of_upper K c cs hd hu
  refine ⟨?_, ?_, ?_, ?_⟩
  · subst hfn
    rw [Binding.Add_eq, addKeys_object, if_pos rfl, if_pos hcap.symm, withParams, hparams]
    simp only
    subst hproto
    rw [Binding.Add_eq, addKeys_methods _ ms hm, afterAdd_ok, addKeys_nil]
    simp [Binding.addElement, hcap]
  · have e : h ++ [{ Name := capitialize name, Methods := [], Fields := [] },
        ({ Name := K, Methods := [], Fields := [] } : Struct)] =
        (h ++ [{ Name := capitialize name, Methods := [], Fields := [] }]) ++
          ({ Name := K, Methods := [], Fields := [] } : Struct) :: [] := by simp
    have hl : h.length + 1 =
        (h ++ [({ Name := capitialize name, Methods := [], Fields := [] } : Struct)]).length := by
      simp
    rw [e, hl, Heap.deref_at]
  · intro heap
    have e : ∀ x : String, x ++ " " ++ anyType = x ++ " interface\x7b\x7d" := by
      intro x
      have e0 : " " ++ anyType = " interface\x7b\x7d" := by decide
      rw [String.append_assoc, e0]
    rw [Method.Text_constructor heap _ hcap, Method.genConstructor, VarList.list_eq,
      VarList.listNames_eq, VarList.sanitized_eq_map, List.map_map, List.map_map,
      List.map_map]
    simp only [Function.comp_def, Variable.sanitized, e, List.map_map]
  · intro hn
    congr 1
    apply List.map_congr_left
    intro n hmem
    simp [Variable.sanitized, hn n hmem]

/-- Witness of `constructor_synthesis`: `{Foo: function (x, y) {...}}` with
`Foo.prototype.bar = function () {}` gives the constructor `Foo(x, y)`, the method `bar`
owned by the struct `Foo`, the struct `Foo` and the struct `Lib`. -/
theorem constructor_synthesis_witness :
    Binding.Add "lib" fooLibrary [] (New "lib") =
      (.ok,
       [{ Name := "Lib", Methods := [], Fields := [] },
        { Name := "Foo", Methods := [], Fields := [] }],
       { name := "lib",
         elems :=
          [.method { Name := "Foo", Binding := none,
                     Params := [{ Name := "x", Typ := "interface\x7b\x7d" },
                                { Name := "y", Typ := "interface\x7b\x7d" }],
                     Return := none },
           .method { Name := "bar", Binding := some 1, Params := [],
                     Return := some { Name := "", Typ := "interface\x7b\x7d" } },
           .struct 1, .struct 0] }) :=
  (constructor_synthesis "lib" "Foo" "Object" "[object Object]"
    "function (x, y) \x7b this.x = x; \x7d" "Object" "[object Object]" .nil (.ok .undefined)
    (.ok .undefined) ["x", "y"]
    [("bar", .mk "Function" "function () \x7b\x7d" .nil
      (.ok (.object (.mk "Object" "[object Object]" .nil (.ok .undefined)))))]
    _ _ [] (New "lib") rfl rfl ⟨'F', _, rfl, by decide⟩ (by decide)
    (by
      intro kf hkf
      rw [List.mem_singleton] at hkf
      subst hkf
      exact ⟨⟨_, _, _, rfl⟩, ⟨'b', _, rfl, by decide⟩, by decide, by decide⟩)).1

/-- C5, counterexample: for `{Foo: function (type) {}}` the first line of the constructor
declares `type_`, not `type`; and when the method of the prototype is the named function
`function bar() {}`, `Binding.Add` panics instead of appending the elements. -/
theorem constructor_header_not_original :
    Binding.Add "lib" typeLibrary [] (New "lib") =
      (.ok,
       [{ Name := "Lib", Methods := [], Fields := [] },
        { Name := "Foo", Methods := [], Fields := [] }],
       { name := "lib",
         elems :=
          [.method { Name := "Foo", Binding := none,
                     Params := [{ Name := "type", Typ := "interface\x7b\x7d" }],
                     Return := none },
           .struct 1, .struct 0] }) ∧
    Method.Text [] { Name := "Foo", Binding := none,
                     Params := [{ Name := "type", Typ := "interface\x7b\x7d" }],
                     Return := none } = .ok
      [ "func NewFoo(type_ interface\x7b\x7d) *Foo \x7b",
        "return js.Global.Get(\"Foo\").New(type_)", "\x7d" ] ∧
    "func NewFoo(type_ interface\x7b\x7d) *Foo \x7b" ≠
      "func NewFoo(type interface\x7b\x7d) *Foo \x7b" ∧
    (Binding.Add "lib" namedMethodLibrary [] (New "lib")).1 = .panic "index out of range" := by
  decide

/-- C6, the code at the failing inputs: reading `inner.bad` fails, and reading
`Foo.prototype.bad` fails, yet `Binding.Add` on the enclosing object returns `nil`; the
nested call itself returns the error. -/
theorem add_drops_nested_error :
    (Binding.Add "lib" nestedFailureLibrary [] (New "lib")).1 = .ok ∧
    (Binding.Add "inner" (plainObject [("bad", .error "getter threw")])
      [{ Name := "Lib", Methods := [], Fields := [] }] (New "lib")).1 =
        .error "getter threw" ∧
    (Binding.Add "lib" prototypeFailureLibrary [] (New "lib")).1 = .ok := by
  decide

/-! ## The parameter extractor -/

theorem starRun_stop {α : Type} (p : Char → Bool) (k : List Char → Option α) (d : Char)
    (s : List Char) (hd : p d = false) : Regex.starRun p k (d :: s) = k (d :: s) := by
  simp [Regex.starRun, hd]

/-- A greedy star that can stop after the run `A` with success also succeeds, with the same
result, when started before `A`. -/
theorem starRun_append {α : Type} (p : Char → Bool) (k : List Char → Option α)
    (A R : List Char) (v : α) (hA : ∀ a ∈ A, p a = true)
    (hR : Regex.starRun p k R = some v) : Regex.starRun p k (A ++ R) = some v := by
  induction A with
  | nil => simpa using hR
  | cons a A ih =>
    have ha : p a = true := hA a (List.mem_cons_self _ _)
    have hA2 : ∀ x ∈ A, p x = true := fun x hx => hA x (List.mem_cons_of_mem _ hx)
    simp [Regex.starRun, ha, ih hA2]

theorem comment_no_match {c : Char} (s : List Char) (hc : c ≠ '/') :
    Regex.matchPrefix commentRegexp (c :: s) = none := by
  simp [Regex.matchPrefix, commentRegexp, Regex.run, hc]

theorem comment_no_match_slash {d : Char} (s : List Char) (h1 : d ≠ '/') (h2 : d ≠ '*') :
    Regex.matchPrefix commentRegexp ('/' :: d :: s) = none := by
  simp [Regex.matchPrefix, commentRegexp, Regex.run, h1, h2]

theorem comment_no_match_slash_end :
    Regex.matchPrefix commentRegexp ['/'] = none := by
  decide

/-- A character that starts no comment is copied. -/
theorem strip_cons {c : Char} (s : List Char) (hc : c ≠ '/') :
    Regex.replaceAllGo commentRegexp [] 0 (c :: s) =
      c :: Regex.replaceAllGo commentRegexp [] 0 s := by
  simp [Regex.replaceAllGo, comment_no_match s hc]

theorem strip_slash {d : Char} (s : List Char) (h1 : d ≠ '/') (h2 : d ≠ '*') :
    Regex.replaceAllGo commentRegexp [] 0 ('/' :: d :: s) =
      '/' :: Regex.replaceAllGo commentRegexp [] 0 (d :: s) := by
  simp [Regex.replaceAllGo, comment_no_match_slash s h1 h2]

/-- A text without `/` is copied. -/
theorem strip_no_slash (P R : List Char) (hP : ∀ c ∈ P, c ≠ '/') :
    Regex.replaceAllGo commentRegexp [] 0 (P ++ R) =
      P ++ Regex.replaceAllGo commentRegexp [] 0 R := by
  induction P with
  | nil => rfl
  | cons c P ih =>
    rw [List.cons_append, strip_cons _ (hP c (List.mem_cons_self _ _)),
      ih (fun x hx => hP x (List.mem_cons_of_mem _ hx))]
    rfl

/-- A name without `//` and `/*`, followed by a character other than `/` and `*`, is
copied. -/
theorem strip_name (n : List Char) (e : Char) (s : List Char)
    (h1 : ¬ "//".data <:+: n) (h2 : ¬ "/*".data <:+: n) (he1 : e ≠ '/') (he2 : e ≠ '*') :
    Regex.replaceAllGo commentRegexp [] 0 (n ++ e :: s) =
      n ++ Regex.replaceAllGo commentRegexp [] 0 (e :: s) := by
  induction n with
  | nil => rfl
  | cons c n ih =>
    have h1t : ¬ "//".data <:+: n := fun hi => h1 (hi.trans (List.suffix_cons c n).isInfix)
    have h2t : ¬ "/*".data <:+: n := fun hi => h2 (hi.trans (List.suffix_cons c n).isInfix)
    by_cases hc : c = '/'
    · subst hc
      cases n with
      | nil =>
        rw [List.cons_append, List.nil_append, strip_slash _ he1 he2]
        rfl
      | cons d n =>
        have hd1 : d ≠ '/' := by
          rintro rfl
          exact h1 (List.prefix_iff_eq_append.mpr (by rfl : _ ++ _ = _) |>.isInfix)
        have hd2 : d ≠ '*' := by
          rintro rfl
          exact h2 (List.prefix_iff_eq_append.mpr (by rfl : _ ++ _ = _) |>.isInfix)
        rw [List.cons_append, List.cons_append, strip_slash _ hd1 hd2, ← List.cons_append,
          ih h1t h2t]
        rfl
    · rw [List.cons_append, strip_cons _ hc, ih h1t h2t]
      rfl

/-- The characters of a match that are still to be dropped are dropped. -/
theorem strip_skip (M R : List Char) :
    Regex.replaceAllGo commentRegexp [] M.length (M ++ R) =
      Regex.replaceAllGo commentRegexp [] 0 R := by
  induction M with
  | nil => rfl
  | cons c M ih => simpa [Regex.replaceAllGo] using ih

/-- The comment pattern matches a block comment up to its last `*/`. -/
theorem comment_match (X : List Char) :
    ∃ cap, Regex.matchPrefix commentRegexp ('/' :: '*' :: (X ++ "*/ \x7d".data)) =
      some (" \x7d".data, cap) := by
  refine ⟨some (('/' :: '*' :: (X ++ "*/ \x7d".data)).take
    (('/' :: '*' :: (X ++ "*/ \x7d".data)).length - 2)), ?_⟩
  simp only [Regex.matchPrefix, commentRegexp, Regex.run]
  simp only [show ('*' = '/') = False from by decide, if_false, if_true]
  rw [starRun_append reAny _ X "*/ \x7d".data _ (fun _ _ => rfl)]
  simp [Regex.starRun, Regex.run, reAny]

/-- The block comment in front of the closing brace is removed. -/
theorem strip_comment (X : List Char) :
    Regex.replaceAllGo commentRegexp [] 0 ('/' :: '*' :: (X ++ "*/ \x7d".data)) =
      " \x7d".data := by
  obtain ⟨cap, hcap⟩ := comment_match X
  have hlen : (" \x7d".data).length ≤ ('*' :: (X ++ "*/ \x7d".data)).length := by
    simp [List.length_append]
  have hsplit : '*' :: (X ++ "*/ \x7d".data) = ('*' :: (X ++ "*/".data)) ++ " \x7d".data := by
    simp
  have hskip : ('*' :: (X ++ "*/ \x7d".data)).length - (" \x7d".data).length =
      ('*' :: (X ++ "*/".data)).length := by
    simp [List.length_append]
  rw [Regex.replaceAllGo, hcap]
  simp only [hlen, if_true, List.nil_append]
  rw [hskip, hsplit, strip_skip]
  decide

theorem intercalate_cons_cons (n m : String) (r : List String) :
    ", ".intercalate (n :: m :: r) = n ++ ", " ++ ", ".intercalate (m :: r) := by
  simp only [String.intercalate, String.intercalate.go]
  rw [intercalate_go_append]

theorem intercalate_cons_cons_data (n m : String) (r : List String) :
    (", ".intercalate (n :: m :: r)).data =
      n.data ++ ',' :: ' ' :: (", ".intercalate (m :: r)).data := by
  rw [intercalate_cons_cons, String.data_append, String.data_append]
  simp

theorem intercalate_singleton (n : String) : ", ".intercalate [n] = n := by
  simp [String.intercalate, String.intercalate.go]

/-- The joined names, followed by a character other than `/` and `*`, are copied. -/
theorem strip_names (names : List String) (e : Char) (s : List Char)
    (hn : ∀ n ∈ names, ¬ "//".data <:+: n.data ∧ ¬ "/*".data <:+: n.data)
    (he1 : e ≠ '/') (he2 : e ≠ '*') :
    Regex.replaceAllGo commentRegexp [] 0 ((", ".intercalate names).data ++ e :: s) =
      (", ".intercalate names).data ++ Regex.replaceAllGo commentRegexp [] 0 (e :: s) := by
  induction names with
  | nil => rfl
  | cons n rest ih =>
    have hn0 := hn n (List.mem_cons_self _ _)
    have hrest := fun x hx => hn x (List.mem_cons_of_mem _ hx)
    cases rest with
    | nil =>
      rw [intercalate_singleton]
      exact strip_name n.data e s hn0.1 hn0.2 he1 he2
    | cons m r =>
      rw [intercalate_cons_cons_data, List.append_assoc, List.cons_append, List.cons_append,
        strip_name n.data ',' _ hn0.1 hn0.2 (by decide) (by decide),
        strip_cons _ (by decide : ',' ≠ '/'), strip_cons _ (by decide : ' ' ≠ '/'), ih hrest]
      simp

/-- Stripping the comments of the source of an anonymous function whose body is one block
comment leaves the header and an empty body. -/
theorem strip_source (names : List String) (comment : List Char)
    (hn : ∀ n ∈ names, ¬ "//".data <:+: n.data ∧ ¬ "/*".data <:+: n.data) :
    Regex.ReplaceAllString commentRegexp
        ("function (".data ++ (", ".intercalate names).data ++
          ") \x7b /* ".data ++ comment ++ " */ \x7d".data) [] =
      "function (".data ++ (", ".intercalate names).data ++ ") \x7b  \x7d".data := by
  have h1 : ("function (".data ++ (", ".intercalate names).data ++
        ") \x7b /* ".data ++ comment ++ " */ \x7d".data) =
      "function (".data ++ ((", ".intercalate names).data ++
        ')' :: (" \x7b ".data ++ '/' :: '*' :: ((' ' :: comment ++ [' ']) ++ "*/ \x7d".data))) := by
    simp
  have h2 : ∀ s : List Char, Regex.replaceAllGo commentRegexp [] 0 (')' :: (" \x7b ".data ++ s)) =
      ')' :: (" \x7b ".data ++ Regex.replaceAllGo commentRegexp [] 0 s) := by
    intro s
    rw [strip_cons _ (by decide : ')' ≠ '/'), strip_no_slash _ _ (by decide)]
  rw [Regex.ReplaceAllString, h1, strip_no_slash _ _ (by decide),
    strip_names names ')' _ hn (by decide) (by decide), h2, strip_comment]
  simp

/-- The header pattern at the start of `function`, white space, `(`, a group without `)`,
`)`: the group is captured. -/
theorem parens_match (sp G rest : List Char) (hsp : ∀ c ∈ sp, reSpace c = true)
    (hG : ∀ c ∈ G, c ≠ ')') :
    Regex.matchPrefix parensRegexp ("function".data ++ (sp ++ '(' :: (G ++ ')' :: rest))) =
      some (rest, some G) := by
  have hword : "function".data = ['f', 'u', 'n', 'c', 't', 'i', 'o', 'n'] := rfl
  have hG2 : ∀ c ∈ G, reNotClose c = true := by
    intro c hc
    simp [reNotClose, hG c hc]
  have htake : (G ++ ')' :: rest).take ((G ++ ')' :: rest).length - (rest.length + 1)) = G := by
    have : (G ++ ')' :: rest).length - (rest.length + 1) = G.length := by
      simp only [List.length_append, List.length_cons]
      omega
    rw [this]
    simp
  simp only [Regex.matchPrefix, parensRegexp, hword, Regex.word, List.foldr, Regex.run,
    List.cons_append, List.nil_append, if_true]
  rw [starRun_append reSpace _ sp _ (rest, some G) hsp]
  rw [starRun_stop _ _ _ _ (by decide)]
  simp only [if_true]
  rw [starRun_append reNotClose _ G _ (rest, some G) hG2]
  rw [starRun_stop _ _ _ _ (by decide)]
  simp only [if_true]
  simp only [List.length_cons]
  rw [htake]

theorem reSpace_isSpace (c : Char) (h : reSpace c = true) : unicodeIsSpace c = true := by
  simp only [reSpace, Bool.or_eq_true, decide_eq_true_eq] at h
  rcases h with (((h | h) | h) | h) | h <;> subst h <;> decide

theorem not_reSpace (c : Char) (h : unicodeIsSpace c = false) : reSpace c = false := by
  cases hc : reSpace c with
  | false => rfl
  | true => rw [reSpace_isSpace c hc] at h; cases h

theorem isSpace_ne_slash (c : Char) (h : unicodeIsSpace c = true) : c ≠ '/' := by
  rintro rfl
  revert h
  decide

theorem isSpace_ne_close (c : Char) (h : unicodeIsSpace c = true) : c ≠ ')' := by
  rintro rfl
  revert h
  decide

theorem trimSpace_all_space (ws : List Char) (h : ∀ c ∈ ws, unicodeIsSpace c = true) :
    TrimSpace ws = [] := by
  have : ws.dropWhile unicodeIsSpace = [] := by
    rw [List.dropWhile_eq_nil_iff]
    exact h
  simp [TrimSpace, this]

theorem trimSpace_id (s : List Char) (hh : ∀ c ∈ s.head?, unicodeIsSpace c = false)
    (hl : ∀ c ∈ s.getLast?, unicodeIsSpace c = false) : TrimSpace s = s := by
  have h1 : s.dropWhile unicodeIsSpace = s := by
    cases s with
    | nil => rfl
    | cons c s =>
      have := hh c (by simp)
      simp [List.dropWhile, this]
  have h2 : s.reverse.dropWhile unicodeIsSpace = s.reverse := by
    cases hr : s.reverse with
    | nil => rfl
    | cons c t =>
      have hc : s.getLast? = some c := by
        rw [List.getLast?_eq_head?_reverse, hr]
        rfl
      have := hl c (by simp [hc])
      simp [List.dropWhile, this]
  simp [TrimSpace, h1, h2]


theorem split_no_match (c : Char) (s : List Char) (h1 : reSpace c = false) (h2 : c ≠ ',') :
    Regex.matchPrefix splitRegexp (c :: s) = none := by
  simp [Regex.matchPrefix, splitRegexp, Regex.run, Regex.starRun, h1, h2]

theorem split_match (c : Char) (s : List Char) (h1 : reSpace c = false) :
    Regex.matchPrefix splitRegexp (',' :: ' ' :: c :: s) = some (c :: s, none) := by
  have e1 : reSpace ',' = false := by decide
  have e2 : reSpace ' ' = true := by decide
  simp [Regex.matchPrefix, splitRegexp, Regex.run, Regex.starRun, h1, e1, e2]

/-- A run of characters that are neither white space nor a comma extends the piece under
construction. -/
theorem splitGo_name (n R hd : List Char) (tl : List (List Char))
    (hn : ∀ c ∈ n, reSpace c = false ∧ c ≠ ',')
    (hR : Regex.splitGo splitRegexp 0 R = hd :: tl) :
    Regex.splitGo splitRegexp 0 (n ++ R) = (n ++ hd) :: tl := by
  induction n with
  | nil => simpa using hR
  | cons c n ih =>
    have hc := hn c (List.mem_cons_self _ _)
    have ih2 := ih (fun x hx => hn x (List.mem_cons_of_mem _ hx))
    rw [List.cons_append, Regex.splitGo, split_no_match c _ hc.1 hc.2]
    simp only [ih2, List.cons_append]

theorem splitGo_separator (c : Char) (s : List Char) (h1 : reSpace c = false) :
    Regex.splitGo splitRegexp 0 (',' :: ' ' :: c :: s) =
      [] :: Regex.splitGo splitRegexp 0 (c :: s) := by
  rw [Regex.splitGo, split_match c s h1]
  simp [Regex.splitGo]

theorem name_head (n : String) (hne : n ≠ "") : ∃ c cs, n.data = c :: cs := by
  cases hd : n.data with
  | nil => exact absurd (String.ext hd) hne
  | cons c cs => exact ⟨c, cs, rfl⟩

/-- Splitting the joined names at the commas gives the names back. -/
theorem split_names (names : List String) (hne : names ≠ [])
    (hn : ∀ n ∈ names, n ≠ "" ∧ ∀ c ∈ n.data, unicodeIsSpace c = false ∧ c ≠ ',') :
    Regex.Split splitRegexp (", ".intercalate names).data = names.map String.data := by
  unfold Regex.Split
  induction names with
  | nil => exact absurd rfl hne
  | cons n rest ih =>
    have hn0 := hn n (List.mem_cons_self _ _)
    have hrest := fun x hx => hn x (List.mem_cons_of_mem _ hx)
    have hchars : ∀ c ∈ n.data, reSpace c = false ∧ c ≠ ',' :=
      fun c hc => ⟨not_reSpace c (hn0.2 c hc).1, (hn0.2 c hc).2⟩
    cases rest with
    | nil =>
      rw [intercalate_singleton]
      have := splitGo_name n.data [] [] [] hchars rfl
      simpa using this
    | cons m r =>
      have ih2 := ih (by simp) hrest
      have hm := hn m (List.mem_cons_of_mem _ (List.mem_cons_self _ _))
      obtain ⟨c, cs, hd⟩ := name_head m hm.1
      have hc : reSpace c = false := not_reSpace c (hm.2 c (by simp [hd])).1
      have hJ : ∃ t, (", ".intercalate (m :: r)).data = c :: t := by
        cases r with
        | nil => exact ⟨cs, by rw [intercalate_singleton, hd]⟩
        | cons m2 r2 =>
          exact ⟨cs ++ ',' :: ' ' :: (", ".intercalate (m2 :: r2)).data, by
            rw [intercalate_cons_cons_data, hd]; rfl⟩
      obtain ⟨t, ht⟩ := hJ
      rw [intercalate_cons_cons_data]
      have hsep : Regex.splitGo splitRegexp 0 (',' :: ' ' :: (", ".intercalate (m :: r)).data) =
          [] :: (m :: r).map String.data := by
        rw [ht, splitGo_separator c t hc, ← ht, ih2]
      have := splitGo_name n.data _ [] _ hchars hsep
      simpa using this


theorem find_of_match (re : Regex) (s : List Char) (m : List Char × Option (List Char))
    (h : Regex.matchPrefix re s = some m) : Regex.find re s = some m := by
  cases s with
  | nil => simpa [Regex.find] using h
  | cons c cs => simp [Regex.find, h]

/-- A property of the separator and of the characters of every name holds of every
character of the joined names. -/
theorem joined_chars (P : Char → Prop) (names : List String) (hc : P ',') (hs : P ' ')
    (hn : ∀ n ∈ names, ∀ c ∈ n.data, P c) : ∀ c ∈ (", ".intercalate names).data, P c := by
  induction names with
  | nil => intro c hc; simp [String.intercalate] at hc
  | cons n rest ih =>
    have hrest := fun x hx => hn x (List.mem_cons_of_mem _ hx)
    cases rest with
    | nil =>
      rw [intercalate_singleton]
      exact hn n (List.mem_cons_self _ _)
    | cons m r =>
      intro c hmem
      rw [intercalate_cons_cons_data, List.mem_append, List.mem_cons, List.mem_cons] at hmem
      rcases hmem with h | h | h | h
      · exact hn n (List.mem_cons_self _ _) c h
      · exact h ▸ hc
      · exact h ▸ hs
      · exact ih hrest c h

theorem joined_head (P : Char → Prop) (names : List String)
    (hn : ∀ n ∈ names, n ≠ "" ∧ ∀ c ∈ n.data, P c) :
    ∀ c ∈ (", ".intercalate names).data.head?, P c := by
  cases names with
  | nil => intro c hc; simp [String.intercalate] at hc
  | cons n rest =>
    have hn0 := hn n (List.mem_cons_self _ _)
    obtain ⟨d, ds, hd⟩ := name_head n hn0.1
    have hh : (", ".intercalate (n :: rest)).data.head? = some d := by
      cases rest with
      | nil => rw [intercalate_singleton, hd]; rfl
      | cons m r => rw [intercalate_cons_cons_data, hd]; rfl
    intro c hc
    rw [hh] at hc
    cases hc
    exact hn0.2 d (by simp [hd])

theorem joined_last (P : Char → Prop) (names : List String)
    (hn : ∀ n ∈ names, n ≠ "" ∧ ∀ c ∈ n.data, P c) :
    ∀ c ∈ (", ".intercalate names).data.getLast?, P c := by
  induction names with
  | nil => intro c hc; simp [String.intercalate] at hc
  | cons n rest ih =>
    have hn0 := hn n (List.mem_cons_self _ _)
    have hrest := fun x hx => hn x (List.mem_cons_of_mem _ hx)
    cases rest with
    | nil =>
      rw [intercalate_singleton]
      intro c hc
      exact hn0.2 c (List.mem_of_mem_getLast? hc)
    | cons m r =>
      have hm := hn m (List.mem_cons_of_mem _ (List.mem_cons_self _ _))
      obtain ⟨d, ds, hd⟩ := name_head m hm.1
      have hJ : ∃ t, (", ".intercalate (m :: r)).data = d :: t := by
        cases r with
        | nil => exact ⟨ds, by rw [intercalate_singleton, hd]⟩
        | cons m2 r2 =>
          exact ⟨ds ++ ',' :: ' ' :: (", ".intercalate (m2 :: r2)).data, by
            rw [intercalate_cons_cons_data, hd]; rfl⟩
      obtain ⟨t, ht⟩ := hJ
      intro c hc
      apply ih hrest c
      rw [intercalate_cons_cons_data, ht] at hc
      rw [ht]
      rw [List.getLast?_append] at hc
      simpa [List.getLast?_cons_cons] using hc


/-- The extractor on the source of an anonymous function whose body is one block comment. -/
theorem parseParams_names (cls : String) (ps : Props) (proto : GetResult)
    (names : List String) (comment : String)
    (hn : ∀ n ∈ names, n ≠ "" ∧
      (∀ c ∈ n.data, unicodeIsSpace c = false ∧ c ≠ ',' ∧ c ≠ '(' ∧ c ≠ ')') ∧
      ¬ "//".data <:+: n.data ∧ ¬ "/*".data <:+: n.data) :
    parseParams (.mk cls
        ("function (" ++ ", ".intercalate names ++ ") \x7b /* " ++ comment ++ " */ \x7d")
        ps proto) =
      some (names.map (fun n => { Name := n, Typ := anyType })) := by
  have hstrip := strip_source names comment.data (fun n h => (hn n h).2.2)
  have hclose : ∀ c ∈ (", ".intercalate names).data, c ≠ ')' :=
    joined_chars (fun c => c ≠ ')') names (by decide) (by decide)
      (fun n h c hc => ((hn n h).2.1 c hc).2.2.2)
  have hmatch := parens_match [' '] (", ".intercalate names).data " \x7b  \x7d".data
    (by decide) hclose
  have hfind : Regex.FindStringSubmatch1 parensRegexp
      ("function (".data ++ (", ".intercalate names).data ++ ") \x7b  \x7d".data) =
        some (", ".intercalate names).data := by
    have e : "function (".data ++ (", ".intercalate names).data ++ ") \x7b  \x7d".data =
        "function".data ++ ([' '] ++ '(' :: ((", ".intercalate names).data ++
          ')' :: " \x7b  \x7d".data)) := by
      simp
    rw [Regex.FindStringSubmatch1, e, find_of_match _ _ _ hmatch]
    rfl
  have hspace : ∀ n ∈ names, n ≠ "" ∧ ∀ c ∈ n.data, unicodeIsSpace c = false :=
    fun n h => ⟨(hn n h).1, fun c hc => ((hn n h).2.1 c hc).1⟩
  have htrim : TrimSpace (", ".intercalate names).data = (", ".intercalate names).data :=
    trimSpace_id _ (joined_head _ names hspace) (joined_last _ names hspace)
  unfold parseParams
  simp only [Object.String, String.data_append]
  rw [hstrip, hfind]
  simp only [htrim]
  cases names with
  | nil => simp [String.intercalate]
  | cons n rest =>
    have hne : (", ".intercalate (n :: rest)).data ≠ [] := by
      obtain ⟨d, ds, hd⟩ := name_head n (hn n (List.mem_cons_self _ _)).1
      cases rest with
      | nil => rw [intercalate_singleton, hd]; simp
      | cons m r => rw [intercalate_cons_cons_data, hd]; simp
    rw [if_neg hne, split_names (n :: rest) (by simp)
      (fun x hx => ⟨(hn x hx).1, fun c hc =>
        ⟨((hn x hx).2.1 c hc).1, ((hn x hx).2.1 c hc).2.1⟩⟩)]
    simp [List.map_map, Function.comp_def]

/-- The extractor on a source whose parenthesized group is empty or white space. -/
theorem parseParams_empty (cls : String) (ps : Props) (proto : GetResult)
    (sp ws rest : String) (hsp : ∀ c ∈ sp.data, reSpace c = true)
    (hws : ∀ c ∈ ws.data, unicodeIsSpace c = true) :
    parseParams (.mk cls ("function" ++ sp ++ "(" ++ ws ++ ")" ++ rest) ps proto) =
      some [] := by
  have hP : ∀ c ∈ "function".data ++ sp.data ++ "(".data ++ ws.data ++ ")".data, c ≠ '/' := by
    intro c hc
    simp only [List.mem_append] at hc
    rcases hc with (((h | h) | h) | h) | h
    · revert c; decide
    · exact isSpace_ne_slash c (reSpace_isSpace c (hsp c h))
    · revert c; decide
    · exact isSpace_ne_slash c (hws c h)
    · revert c; decide
  have hmatch := parens_match sp.data ws.data
    (Regex.replaceAllGo commentRegexp [] 0 rest.data) hsp
    (fun c hc => isSpace_ne_close c (hws c hc))
  unfold parseParams
  simp only [Object.String, String.data_append]
  rw [Regex.ReplaceAllString, strip_no_slash _ _ hP, Regex.FindStringSubmatch1]
  have e : "function".data ++ sp.data ++ "(".data ++ ws.data ++ ")".data ++
        Regex.replaceAllGo commentRegexp [] 0 rest.data =
      "function".data ++ (sp.data ++ '(' :: (ws.data ++
        ')' :: Regex.replaceAllGo commentRegexp [] 0 rest.data)) := by
    simp
  rw [e, find_of_match _ _ _ hmatch]
  simp [trimSpace_all_space ws.data hws]


/-- C3: for parameter names `n1..nk`, each non-empty and free of white space, commas,
parentheses and the comment openers `//` and `/*`, `parseParams` on the source
`function (n1, ..., nk) { /* <any comment> */ }` returns the variables `n1..nk` in order, each
of type `interface{}`; on a source `function<white space>(<white space>)<anything>`, whose
parenthesized group is empty or white space, it returns the empty list. -/
theorem extract_anonymous_function (cls : String) (ps : Props) (proto : GetResult)
    (names : List String) (comment : String)
    (hn : ∀ n ∈ names, n ≠ "" ∧
      (∀ c ∈ n.data, unicodeIsSpace c = false ∧ c ≠ ',' ∧ c ≠ '(' ∧ c ≠ ')') ∧
      ¬ "//".data <:+: n.data ∧ ¬ "/*".data <:+: n.data) :
    parseParams (.mk cls
        ("function (" ++ ", ".intercalate names ++ ") \x7b /* " ++ comment ++ " */ \x7d")
        ps proto) =
      some (names.map (fun n => { Name := n, Typ := "interface\x7b\x7d" })) ∧
    (∀ sp ws rest : String,
      (∀ c ∈ sp.data, reSpace c = true) → (∀ c ∈ ws.data, unicodeIsSpace c = true) →
      parseParams (.mk cls ("function" ++ sp ++ "(" ++ ws ++ ")" ++ rest) ps proto) =
        some []) :=
  ⟨parseParams_names cls ps proto names comment hn,
   fun sp ws rest hsp hws => parseParams_empty cls ps proto sp ws rest hsp hws⟩

/-- Witness of `extract_anonymous_function`: `function (a, b, c) { /* note, with comma */ }`
gives `a, b, c` and `function()  {}` gives the empty list. -/
theorem extract_anonymous_function_witness :
    parseParams (.mk "Function" "function (a, b, c) \x7b /* note, with comma */ \x7d" .nil
        (.ok .undefined)) =
      some [{ Name := "a", Typ := "interface\x7b\x7d" }, { Name := "b", Typ := "interface\x7b\x7d" },
            { Name := "c", Typ := "interface\x7b\x7d" }] ∧
    parseParams (.mk "Function" "function()  \x7b\x7d" .nil (.ok .undefined)) = some [] :=
  ⟨(extract_anonymous_function "Function" .nil (.ok .undefined) ["a", "b", "c"]
      "note, with comma" (by decide)).1,
   (extract_anonymous_function "Function" .nil (.ok .undefined) [] "" (by simp)).2
      "" "" "  \x7b\x7d" (by simp) (by simp)⟩

/-! ## Invariants of the classifier -/
theorem withParams_cases (function : Object) (h : Heap) (b : Binding) (k : VarList → AddResult) :
    (parseParams function = none ∧ withParams function h b k = (.panic "index out of range", h, b)) ∨
    (∃ params, parseParams function = some params ∧ withParams function h b k = k params) := by
  unfold withParams
  cases parseParams function with
  | none => exact Or.inl ⟨rfl, rfl⟩
  | some params => exact Or.inr ⟨params, rfl, rfl⟩

theorem afterAdd_cases (o : Outcome) (h : Heap) (b : Binding)
    (next : Heap → Binding → AddResult) :
    (∃ msg, o = .panic msg ∧ afterAdd (o, h, b) next = (.panic msg, h, b)) ∨
    ((∀ msg, o ≠ .panic msg) ∧ afterAdd (o, h, b) next = next h b) := by
  cases o with
  | ok => exact Or.inr ⟨(fun _ hh => by cases hh), rfl⟩
  | error e => exact Or.inr ⟨(fun _ hh => by cases hh), rfl⟩
  | panic msg => exact Or.inl ⟨msg, rfl, rfl⟩

theorem traversable_nil : Props.traversable .nil = true := rfl

theorem traversable_error (key err : String) (rest : Props) :
    Props.traversable (.cons key (.error err) rest) = false := rfl

theorem traversable_primitive (key : String) (val : Value) (hv : val.IsObject = false)
    (rest : Props) :
    Props.traversable (.cons key (.ok val) rest) = Props.traversable rest := by
  cases val with
  | object o => exact Bool.noConfusion hv
  | _ => rfl

theorem traversable_object (key cls text : String) (ps : Props) (proto : GetResult)
    (rest : Props) :
    Props.traversable (.cons key (.ok (.object (.mk cls text ps proto))) rest) =
      ((if cls = "Function" then
        if key = capitialize key then
          (parseParams (.mk cls text ps proto)).isSome &&
            (match proto with
              | .ok (.object protoObj) => Object.traversable protoObj
              | _ => false)
        else if key = "constructor" then true
        else (parseParams (.mk cls text ps proto)).isSome
      else if cls = "Array" then true
      else Object.traversable (.mk cls text ps proto)) && Props.traversable rest) := by
  cases proto with
  | error err => rfl
  | ok val => cases val <;> rfl


theorem ElemInv.mono {p0 lo0 hi0 p lo hi : Nat} {e : Element} (he : ElemInv p0 lo0 hi0 e)
    (hp : p0 = p ∨ (lo ≤ p0 ∧ p0 < hi)) (hlo : lo ≤ lo0) (hhi : hi0 ≤ hi) :
    ElemInv p lo hi e := by
  cases e with
  | iface i => exact he
  | struct q =>
    simp only [ElemInv] at he ⊢
    omega
  | method m =>
    simp only [ElemInv] at he ⊢
    refine ⟨he.1, fun q hq => ?_⟩
    have := he.2 q hq
    omega

theorem Pending.empty (p : Nat) : Pending p [] := by
  intro pre m post q h
  simp at h

theorem Pending.append {p : Nat} {l1 l2 : List Element} (h1 : Pending p l1)
    (h2 : Pending p l2) : Pending p (l1 ++ l2) := by
  intro pre m post q h hq
  rcases List.append_eq_append_iff.mp h with ⟨a, hpre, hl2⟩ | ⟨c, hl1, hc⟩
  · exact h2 a m post q hl2 hq
  · cases c with
    | nil =>
      simp only [List.nil_append] at hc
      exact h2 [] m post q (by simpa using hc.symm) hq
    | cons x c =>
      simp only [List.cons_append, List.cons.injEq] at hc
      obtain ⟨hx, hpost⟩ := hc
      subst hx
      rcases h1 pre m c q hl1 hq with h | h
      · exact Or.inl h
      · exact Or.inr (by rw [hpost]; exact List.mem_append_left _ h)

theorem Pending.method {p : Nat} (m : Method) (hm : ∀ q, m.Binding = some q → q = p) :
    Pending p [Element.method m] := by
  intro pre m2 post q h hq
  cases pre with
  | nil =>
    simp only [List.nil_append, List.cons.injEq, Element.method.injEq] at h
    obtain ⟨hm2, _⟩ := h
    subst hm2
    exact Or.inl (hm q hq)
  | cons x pre =>
    simp only [List.cons_append, List.cons.injEq] at h
    have := h.2
    simp at this

theorem Pending.struct (p q : Nat) : Pending p [Element.struct q] := by
  intro pre m post r h hr
  cases pre with
  | nil => simp at h
  | cons x pre =>
    simp only [List.cons_append, List.cons.injEq] at h
    have := h.2
    simp at this

theorem Pending.of_declared {p : Nat} {l : List Element}
    (h : ∀ pre m post q, l = pre ++ Element.method m :: post → m.Binding = some q →
      Element.struct q ∈ post) : Pending p l :=
  fun pre m post q hl hq => Or.inr (h pre m post q hl hq)

/-- A sequence with pending methods of the struct at `p`, followed by that struct, declares
every receiver. -/
theorem Pending.close {p : Nat} {body : List Element} (h : Pending p body) :
    ∀ pre m post q, body ++ [Element.struct p] = pre ++ Element.method m :: post →
      m.Binding = some q → Element.struct q ∈ post := by
  intro pre m post q hl hq
  have h2 : Pending p (body ++ [Element.struct p]) := h.append (Pending.struct p p)
  rcases List.append_eq_append_iff.mp hl with ⟨a, hpre, ha⟩ | ⟨c, hbody, hc⟩
  · cases a with
    | nil => simp at ha
    | cons x a =>
      simp only [List.cons_append, List.cons.injEq] at ha
      have := ha.2
      simp at this
  · cases c with
    | nil => simp at hc
    | cons x c =>
      simp only [List.cons_append, List.cons.injEq] at hc
      obtain ⟨hx, hpost⟩ := hc
      subst hx
      rcases h pre m c q hbody hq with hqp | hmem
      · subst hqp
        rw [hpost]
        simp
      · rw [hpost]
        exact List.mem_append_left _ hmem


theorem KeysInv.no_keys (pre : Heap) (s : Struct) (post : Heap) (b : Binding) :
    KeysInv true pre s post b (.ok, pre ++ s :: post, b.addElement (.struct pre.length)) := by
  refine ⟨.ok, [], [], [.struct pre.length], ?_, ?_, ?_, ?_, ?_⟩
  · simp [Binding.addElement]
  · intro f hf; cases hf
  · intro c hc; cases hc
  · intro e he
    rw [List.mem_singleton] at he
    subst he
    exact Or.inl rfl
  · intro _
    exact ⟨rfl, [], rfl, Pending.empty _⟩

/-- A run that stops early: it has appended `new` and changed nothing else. -/
theorem KeysInv.stop (o : Outcome) (pre : Heap) (s : Struct) (post : Heap) (b : Binding)
    (new : List Element)
    (hnew : ∀ e ∈ new, ElemInv pre.length (pre.length + 1 + post.length)
      (pre.length + 1 + post.length) e) :
    KeysInv false pre s post b (o, pre ++ s :: post, { b with elems := b.elems ++ new }) := by
  refine ⟨o, [], [], new, ?_, ?_, ?_, ?_, ?_⟩
  · simp
  · intro f hf; cases hf
  · intro c hc; cases hc
  · simpa using hnew
  · intro h; cases h

/-- A key that appends the field `f`. -/
theorem KeysInv.field {t : Bool} {pre : Heap} {s : Struct} {post : Heap} {b : Binding}
    {r : AddResult} (f : Variable) (hf : GoodField f)
    (ih : KeysInv t pre { s with Fields := s.Fields ++ [f] } post b r) :
    KeysInv t pre s post b r := by
  obtain ⟨o, fs, cells, new, hr, hfs, hcells, hnew, ht⟩ := ih
  refine ⟨o, f :: fs, cells, new, ?_, ?_, hcells, hnew, ht⟩
  · rw [hr]
    simp
  · intro g hg
    rcases List.mem_cons.mp hg with h | h
    · exact h ▸ hf
    · exact hfs g h

/-- A key that appends the elements `front`, none of which waits for a struct other than the
one at `pre.length`. -/
theorem KeysInv.front {t : Bool} {pre : Heap} {s : Struct} {post : Heap} {b : Binding}
    {r : AddResult} (front : List Element)
    (hfront : ∀ e ∈ front, ElemInv pre.length (pre.length + 1 + post.length)
      (pre.length + 1 + post.length) e)
    (hpend : Pending pre.length front)
    (ih : KeysInv t pre s post { b with elems := b.elems ++ front } r) :
    KeysInv t pre s post b r := by
  obtain ⟨o, fs, cells, new, hr, hfs, hcells, hnew, ht⟩ := ih
  refine ⟨o, fs, cells, front ++ new, ?_, hfs, hcells, ?_, ?_⟩
  · rw [hr]
    simp
  · intro e he
    rcases List.mem_append.mp he with h | h
    · exact (hfront e h).mono (Or.inl rfl) (Nat.le_refl _) (Nat.le_add_right _ _)
    · exact hnew e h
  · intro htt
    obtain ⟨ho, body, hbody, hp⟩ := ht htt
    exact ⟨ho, front ++ body, by rw [hbody, List.append_assoc], hpend.append hp⟩

/-- A key that calls `Add` on a nested object and then goes on with the other keys. -/
theorem KeysInv.nested {t1 t2 : Bool} {pre : Heap} {s : Struct} {post : Heap} {b : Binding}
    {name : String} {r1 : AddResult} {next : Heap → Binding → AddResult}
    (hadd : AddInv t1 name (pre ++ s :: post) b r1)
    (ih : ∀ post2 b2, KeysInv t2 pre s post2 b2 (next (pre ++ s :: post2) b2)) :
    KeysInv (t1 && t2) pre s post b (afterAdd r1 next) := by
  obtain ⟨o1, s2, cells2, new2, hr1, hname, hs2, hcells2, hnew2, ht1⟩ := hadd
  have hheap : (pre ++ s :: post) ++ s2 :: cells2 = pre ++ s :: (post ++ s2 :: cells2) := by
    simp
  have hlen : (pre ++ s :: post).length = pre.length + 1 + post.length := by
    simp [List.length_append]
    omega
  rw [hlen] at hnew2
  rw [hr1, hheap]
  rcases afterAdd_cases o1 (pre ++ s :: (post ++ s2 :: cells2))
      { b with elems := b.elems ++ new2 } next with ⟨msg, ho1, hafter⟩ | ⟨_, hafter⟩
  · rw [hafter]
    refine ⟨.panic msg, [], s2 :: cells2, new2, ?_, ?_, ?_, ?_, ?_⟩
    · simp
    · intro f hf; cases hf
    · intro c hc
      rcases List.mem_cons.mp hc with h | h
      · exact h ▸ hs2
      · exact hcells2 c h
    · intro e he
      refine (hnew2 e he).mono (Or.inr ⟨Nat.le_refl _, ?_⟩) (Nat.le_succ _) ?_
      · simp only [List.length_cons]; omega
      · simp only [List.length_cons]; omega
    · intro htt
      have h1 : t1 = true := by
        cases t1 with
        | true => rfl
        | false => simp at htt
      have := (ht1 h1).1
      rw [ho1] at this
      cases this
  · rw [hafter]
    obtain ⟨o, fs, cells3, new3, hr, hfs, hcells3, hnew3, ht2⟩ :=
      ih (post ++ s2 :: cells2) { b with elems := b.elems ++ new2 }
    refine ⟨o, fs, s2 :: cells2 ++ cells3, new2 ++ new3, ?_, hfs, ?_, ?_, ?_⟩
    · rw [hr]
      simp
    · intro c hc
      rcases List.mem_append.mp hc with h | h
      · rcases List.mem_cons.mp h with h | h
        · exact h ▸ hs2
        · exact hcells2 c h
      · exact hcells3 c h
    · intro e he
      rcases List.mem_append.mp he with h | h
      · refine (hnew2 e h).mono (Or.inr ⟨Nat.le_refl _, ?_⟩) (Nat.le_succ _) ?_
        · simp only [List.length_append, List.length_cons]; omega
        · simp only [List.length_append, List.length_cons]; omega
      · refine (hnew3 e h).mono (Or.inl rfl) ?_ ?_
        · simp only [List.length_append, List.length_cons]; omega
        · simp only [List.length_append, List.length_cons]; omega
    · intro htt
      have h1 : t1 = true ∧ t2 = true := by simpa using htt
      obtain ⟨ho, body, hbody, hp⟩ := ht2 h1.2
      refine ⟨ho, new2 ++ body, by rw [hbody, List.append_assoc], ?_⟩
      exact (Pending.of_declared (ht1 h1.1).2).append hp


theorem parseParams_types (function : Object) (params : VarList)
    (h : parseParams function = some params) : ∀ v ∈ params, v.Typ = anyType := by
  unfold parseParams at h
  simp only at h
  split at h
  · cases h
  · split_ifs at h
    · cases h
      intro v hv
      cases hv
    · cases h
      intro v hv
      obtain ⟨param, _, hp⟩ := List.mem_map.mp hv
      rw [← hp]

theorem setType_good (key : String) (val : Value) :
    GoodField (({ Name := key, Typ := "" } : Variable).setType val) := by
  cases val <;> simp [Variable.setType, Value.IsString, Value.IsBoolean, Value.IsNumber, GoodField]

theorem AddInv.of_keys {t : Bool} {name : String} {h : Heap} {b : Binding} {r : AddResult}
    (hk : KeysInv t h { Name := capitialize name, Methods := [], Fields := [] } [] b r) :
    AddInv t name h b r := by
  obtain ⟨o, fs, cells, new, hr, hfs, hcells, hnew, ht⟩ := hk
  refine ⟨o, { Name := capitialize name, Methods := [], Fields := fs }, cells, new, ?_, rfl,
    ⟨rfl, hfs⟩, hcells, ?_, ?_⟩
  · rw [hr]
    simp
  · intro e he
    exact (hnew e he).mono (Or.inl rfl) (by simp) (by simp)
  · intro htt
    obtain ⟨ho, body, hbody, hp⟩ := ht htt
    exact ⟨ho, hbody ▸ hp.close⟩


theorem heap_length (pre : Heap) (s : Struct) (post : Heap) :
    (pre ++ s :: post).length = pre.length + 1 + post.length := by
  simp only [List.length_append, List.length_cons]
  omega

/-- The constructor method that `Binding.Add` appends for the key `key`. -/
theorem ctor_inv (key : String) (params : VarList) (function : Object) (p lo hi : Nat)
    (hp : parseParams function = some params) (hk : key = capitialize key) :
    ∀ e ∈ [Element.method { Name := key, Binding := none, Params := params, Return := none }],
      ElemInv p lo hi e := by
  intro e he
  rw [List.mem_singleton] at he
  subst he
  exact ⟨⟨parseParams_types function params hp, Or.inl ⟨rfl, rfl, hk.symm⟩⟩,
    fun q hq => by cases hq⟩

/-- The instance method that `Binding.Add` appends for the key `key`. -/
theorem method_inv (key : String) (params : VarList) (function : Object) (p lo hi : Nat)
    (hp : parseParams function = some params) (hk : key ≠ capitialize key) :
    ∀ e ∈ [Element.method
        { Name := key, Binding := some p, Params := params,
          Return := some { Name := "", Typ := anyType } }],
      ElemInv p lo hi e := by
  intro e he
  rw [List.mem_singleton] at he
  subst he
  exact ⟨⟨parseParams_types function params hp, Or.inr ⟨⟨p, rfl⟩, rfl, fun h => hk h.symm⟩⟩,
    fun q hq => by cases hq; exact Or.inl rfl⟩

mutual
/-- The invariant of `Binding.Add`, by recursion on the object. -/
theorem Add_inv (obj : Object) (name : String) (h : Heap) (b : Binding) :
    AddInv obj.traversable name h b (Binding.Add name obj h b) :=
  match obj with
  | .mk cls text props proto => by
    rw [Binding.Add_eq]
    exact AddInv.of_keys (addKeys_inv props h _ [] b)
/-- The invariant of the loop of `Binding.Add`, by recursion on the keys. -/
theorem addKeys_inv (props : Props) (pre : Heap) (s : Struct) (post : Heap) (b : Binding) :
    KeysInv props.traversable pre s post b
      (Binding.addKeys pre.length props (pre ++ s :: post) b) :=
  match props with
  | .nil => by
    rw [addKeys_nil]
    exact KeysInv.no_keys pre s post b
  | .cons key (.error err) rest => by
    rw [addKeys_error]
    have := KeysInv.stop (.error err) pre s post b [] (fun e he => by cases he)
    simpa using this
  | .cons key (.ok (.object (.mk cls text ps proto))) rest => by
    rw [addKeys_object, traversable_object]
    split_ifs with h1 h2 h3 h4
    · rcases withParams_cases (.mk cls text ps proto) (pre ++ s :: post) b _ with
        ⟨hnone, hw⟩ | ⟨params, hsome, hw⟩
      · rw [hw, hnone]
        have := KeysInv.stop (.panic "index out of range") pre s post b []
          (fun e he => by cases he)
        simpa using this
      · rw [hw, hsome]
        have hctor := ctor_inv key params _ pre.length (pre.length + 1 + post.length)
          (pre.length + 1 + post.length) hsome h2
        match proto with
        | .error err =>
          exact KeysInv.stop (.error err) pre s post b _ hctor
        | .ok (.object protoObj) =>
          simp only [Option.isSome_some, Bool.true_and]
          apply KeysInv.front _ hctor (Pending.method _ (fun q hq => by cases hq))
          exact KeysInv.nested (Add_inv protoObj key _ _)
            (fun post2 b2 => addKeys_inv rest pre s post2 b2)
        | .ok .undefined => exact KeysInv.stop _ pre s post b _ hctor
        | .ok .null => exact KeysInv.stop _ pre s post b _ hctor
        | .ok .boolean => exact KeysInv.stop _ pre s post b _ hctor
        | .ok .number => exact KeysInv.stop _ pre s post b _ hctor
        | .ok .string => exact KeysInv.stop _ pre s post b _ hctor
    · simp only [Bool.true_and]
      exact addKeys_inv rest pre s post b
    · rcases withParams_cases (.mk cls text ps proto) (pre ++ s :: post) b _ with
        ⟨hnone, hw⟩ | ⟨params, hsome, hw⟩
      · rw [hw, hnone]
        have := KeysInv.stop (.panic "index out of range") pre s post b []
          (fun e he => by cases he)
        simpa using this
      · rw [hw, hsome]
        simp only [Option.isSome_some, Bool.true_and]
        exact KeysInv.front _
          (method_inv key params _ pre.length _ _ hsome h2)
          (Pending.method _ (fun q hq => by cases hq; rfl))
          (addKeys_inv rest pre s post _)
    · rw [Heap.update_at]
      simp only [Bool.true_and]
      exact KeysInv.field _ (Or.inr (Or.inr (Or.inr (Or.inr rfl))))
        (addKeys_inv rest pre _ post b)
    · exact KeysInv.nested (Add_inv (.mk cls text ps proto) key _ _)
        (fun post2 b2 => addKeys_inv rest pre s post2 b2)
  | .cons key (.ok .undefined) rest => by
    rw [addKeys_primitive key .undefined rfl, traversable_primitive key .undefined rfl]
    exact KeysInv.field _ (setType_good key _) (addKeys_inv rest pre _ post b)
  | .cons key (.ok .null) rest => by
    rw [addKeys_primitive key .null rfl, traversable_primitive key .null rfl]
    exact KeysInv.field _ (setType_good key _) (addKeys_inv rest pre _ post b)
  | .cons key (.ok .boolean) rest => by
    rw [addKeys_primitive key .boolean rfl, traversable_primitive key .boolean rfl]
    exact KeysInv.field _ (setType_good key _) (addKeys_inv rest pre _ post b)
  | .cons key (.ok .number) rest => by
    rw [addKeys_primitive key .number rfl, traversable_primitive key .number rfl]
    exact KeysInv.field _ (setType_good key _) (addKeys_inv rest pre _ post b)
  | .cons key (.ok .string) rest => by
    rw [addKeys_primitive key .string rfl, traversable_primitive key .string rfl]
    exact KeysInv.field _ (setType_good key _) (addKeys_inv rest pre _ post b)
end


/-! ## `Export` -/

theorem foldl_append_string (acc : String) (l : List String) :
    l.foldl (fun r s => r ++ s) acc = acc ++ l.foldl (fun r s => r ++ s) "" := by
  induction l generalizing acc with
  | nil => simp
  | cons x xs ih =>
    simp only [List.foldl_cons]
    rw [ih (acc ++ x), ih ("" ++ x)]
    simp [String.append_assoc]

theorem join_nil : String.join [] = "" := rfl

theorem join_cons (a : String) (l : List String) :
    String.join (a :: l) = a ++ String.join l := by
  simp only [String.join, List.foldl_cons]
  rw [foldl_append_string]
  simp

/-- Without a failing write the lines are appended to the file, each with a newline. -/
theorem writeLines_ok (faults : Faults) (hw : ∀ k, faults.write k = false) (k : Nat)
    (lines : List String) (content : String) :
    writeLines faults k lines content =
      (content ++ String.join (lines.map (fun line => line ++ "\n")),
        some (k + lines.length)) := by
  induction lines generalizing k content with
  | nil => simp [writeLines, join_nil]
  | cons line rest ih =>
    simp only [writeLines, hw k, Bool.false_eq_true, if_false, List.map_cons, join_cons,
      List.length_cons]
    rw [ih]
    simp only [String.append_assoc]
    congr 2
    omega

/-- Without a failing write and with elements whose text can be computed, the outer loop of
`Export` appends the lines of every element and one empty line after each. -/
theorem exportElems_ok (h : Heap) (faults : Faults) (hw : ∀ k, faults.write k = false)
    (elems : List Element) (texts : List (List String))
    (ht : List.Forall₂ (fun e lines => Element.Text h e = .ok lines) elems texts)
    (k : Nat) (content : String) (tail : List Element) :
    ∃ k2, exportElems h faults k (elems ++ tail) content =
      exportElems h faults k2 tail
        (content ++ String.join (texts.map (fun lines =>
          String.join (lines.map (fun line => line ++ "\n")) ++ "\n"))) := by
  induction ht generalizing k content with
  | nil => exact ⟨k, by simp [join_nil]⟩
  | @cons e lines es ts hd _ ih =>
    obtain ⟨k2, hk2⟩ := ih (k + lines.length + 1)
      (content ++ String.join (lines.map (fun line => line ++ "\n")) ++ "\n")
    refine ⟨k2, ?_⟩
    rw [List.cons_append, exportElems, hd]
    simp only [writeLines_ok faults hw, hw, Bool.false_eq_true, if_false]
    rw [hk2]
    simp only [List.map_cons, join_cons, String.append_assoc]

theorem Export_eq (b : Binding) (h : Heap) (faults : Faults) (file : File)
    (hr : faults.remove = false) (hc : faults.create = false)
    (hw : ∀ k, faults.write k = false) :
    Binding.Export b h faults file =
      exportElems h faults 2 b.elems
        ("package " ++ b.name ++ "\n" ++ "import \"github.com/gopherjs/gopherjs/js\"\n") := by
  have e : importStmt ++ "\n" = "import \"github.com/gopherjs/gopherjs/js\"\n" := by decide
  have e2 : packageStmt ++ " " = "package " := by decide
  simp only [Binding.Export, hr, hc, hw, Bool.false_eq_true, if_false, e, e2]

/-- C11: when no operation on the file system fails and the text of every element can be
computed, `Export` returns `nil` and the destination holds `package N`, the import line and
then, for every element in the order of `b.elems`, its lines, each ended by a newline, and
one empty line; the result does not depend on what the destination held before. -/
theorem export_format (b : Binding) (h : Heap) (faults : Faults) (file : File)
    (texts : List (List String))
    (hr : faults.remove = false) (hc : faults.create = false)
    (hw : ∀ k, faults.write k = false)
    (ht : List.Forall₂ (fun e lines => Element.Text h e = .ok lines) b.elems texts) :
    Binding.Export b h faults file =
      (.ok, some ("package " ++ b.name ++ "\n" ++
        "import \"github.com/gopherjs/gopherjs/js\"\n" ++
        String.join (texts.map (fun lines =>
          String.join (lines.map (fun line => line ++ "\n")) ++ "\n")))) := by
  rw [Export_eq b h faults file hr hc hw]
  obtain ⟨k2, hk2⟩ := exportElems_ok h faults hw b.elems texts ht 2
    ("package " ++ b.name ++ "\n" ++ "import \"github.com/gopherjs/gopherjs/js\"\n") []
  rw [List.append_nil] at hk2
  rw [hk2, exportElems]

/-- Witness of `export_format`: a binding with the struct `Lib` and the constructor `Foo`,
exported over a destination that held `old`. -/
theorem export_format_witness :
    Binding.Export
        { name := "lib",
          elems := [.method { Name := "Foo", Binding := none, Params := [], Return := none },
                    .struct 0] }
        [{ Name := "Lib", Methods := [], Fields := [] }] noFaults (some "old") =
      (.ok, some ("package lib\nimport \"github.com/gopherjs/gopherjs/js\"\n" ++
        "func NewFoo() *Foo \x7b\nreturn js.Global.Get(\"Foo\").New()\n\x7d\n\n" ++
        "type Lib struct \x7b\njs.Object\n\x7d\n\n")) :=
  export_format _ _ noFaults (some "old")
    [["func NewFoo() *Foo \x7b", "return js.Global.Get(\"Foo\").New()", "\x7d"],
     ["type Lib struct \x7b", "js.Object", "\x7d"]]
    rfl rfl (fun _ => rfl) (.cons rfl (.cons rfl .nil))

/-- The text of an instance method with a return type that `genCastObject` does not know. -/
theorem Method.Text_unsupported (h : Heap) (m : Method) (ret : Variable)
    (hc : capitialize m.Name ≠ m.Name) (hret : m.Return = some ret)
    (hbad : ret.Typ ∉ ["string", "float64", "int", "interface\x7b\x7d"]) :
    Method.Text h m =
      .error "Function may only return float64, int, string, or interface\x7b\x7d" := by
  have ha : anyType = "interface\x7b\x7d" := rfl
  rw [Method.Text_return h m ret hc hret]
  simp only [List.mem_cons, List.mem_singleton, List.not_mem_nil, or_false, not_or] at hbad
  obtain ⟨h1, h2, h3, h4⟩ := hbad
  simp [Method.genCastObject, h1, h2, h3, h4, ha]

/-- C12, as the code has it: when the binding holds an instance method with an unsupported
return type, behind elements whose text can be computed, and no operation on the file system
fails, `Export` panics with the error of `genCastObject` when it reaches the method.  By then
the destination has been removed and created again and holds the package line, the import
line and the text of the elements in front of the method; nothing of the method and of the
elements behind it is written. -/
theorem export_unsupported_return (b : Binding) (h : Heap) (faults : Faults) (file : File)
    (front back : List Element) (m : Method) (ret : Variable) (texts : List (List String))
    (hr : faults.remove = false) (hc : faults.create = false)
    (hw : ∀ k, faults.write k = false)
    (hb : b.elems = front ++ Element.method m :: back)
    (ht : List.Forall₂ (fun e lines => Element.Text h e = .ok lines) front texts)
    (hm : capitialize m.Name ≠ m.Name) (hret : m.Return = some ret)
    (hbad : ret.Typ ∉ ["string", "float64", "int", "interface\x7b\x7d"]) :
    Binding.Export b h faults file =
      (.panic "Function may only return float64, int, string, or interface\x7b\x7d",
       some ("package " ++ b.name ++ "\n" ++
        "import \"github.com/gopherjs/gopherjs/js\"\n" ++
        String.join (texts.map (fun lines =>
          String.join (lines.map (fun line => line ++ "\n")) ++ "\n")))) := by
  rw [Export_eq b h faults file hr hc hw, hb]
  obtain ⟨k2, hk2⟩ := exportElems_ok h faults hw front texts ht 2
    ("package " ++ b.name ++ "\n" ++ "import \"github.com/gopherjs/gopherjs/js\"\n")
    (Element.method m :: back)
  rw [hk2, exportElems]
  simp only [Element.Text, Method.Text_unsupported h m ret hm hret hbad]

/-- Witness of `export_unsupported_return`: the struct `Lib` followed by the method `bar`
with the return type `bool`, exported to a destination that does not exist. -/
theorem export_unsupported_return_witness :
    Binding.Export boolMethodBinding [{ Name := "Lib", Methods := [], Fields := [] }]
        noFaults none =
      (.panic "Function may only return float64, int, string, or interface\x7b\x7d",
       some ("package lib\nimport \"github.com/gopherjs/gopherjs/js\"\n" ++
        "type Lib struct \x7b\njs.Object\n\x7d\n\n")) :=
  export_unsupported_return boolMethodBinding _ noFaults none [.struct 0] []
    { Name := "bar", Binding := some 0, Params := [],
      Return := some { Name := "", Typ := "bool" } }
    { Name := "", Typ := "bool" } [["type Lib struct \x7b", "js.Object", "\x7d"]]
    rfl rfl (fun _ => rfl) rfl (.cons rfl .nil) (by decide) rfl (by decide)

/-- C12, counterexample: for the struct `Lib` followed by the method `bar` with the return
type `bool`, `Export` to a destination that does not exist ends with the destination
existing: it holds the header and the text of `Lib`.  With the method alone the destination
holds the header. -/
theorem export_leaves_partial_file :
    (Binding.Export boolMethodBinding [{ Name := "Lib", Methods := [], Fields := [] }]
        noFaults none).2 =
      some ("package lib\nimport \"github.com/gopherjs/gopherjs/js\"\n" ++
        "type Lib struct \x7b\njs.Object\n\x7d\n\n") ∧
    (Binding.Export
        { name := "lib",
          elems := [.method { Name := "bar", Binding := none, Params := [],
                              Return := some { Name := "", Typ := "bool" } }] }
        [] noFaults none).2 =
      some "package lib\nimport \"github.com/gopherjs/gopherjs/js\"\n" ∧
    (Binding.Export boolMethodBinding [{ Name := "Lib", Methods := [], Fields := [] }]
        noFaults none).2 ≠ none := by
  decide

/-! ## The rule that tells constructors from instance methods -/

theorem toUpper_eq_of_not_lower (c : Char) (h : c.isLower = false) : c.toUpper = c := by
  have hn : ¬ (97 ≤ c.toNat ∧ c.toNat ≤ 122) := by
    intro hc
    have : c.isLower = true := by
      simp only [Char.isLower, Bool.and_eq_true, decide_eq_true_eq]
      exact ⟨hc.1, hc.2⟩
    rw [h] at this
    cases this
  unfold Char.toUpper
  simp only
  rw [if_neg]
  simpa using hn

/-- For a name that is empty or starts with an ASCII character, the guard
`key == capitialize(key)` holds exactly when the name does not start with a lower-case letter
`a..z`. -/
theorem capitialize_eq_iff (key : String)
    (_hascii : ∀ c cs, key.data = c :: cs → c.toNat < 128) :
    key = capitialize key ↔ ∀ c cs, key.data = c :: cs → c.isLower = false := by
  constructor
  · intro he c cs hd
    cases hl : c.isLower with
    | false => rfl
    | true => exact absurd he (capitialize_ne_of_lower key c cs hd hl)
  · intro h
    apply String.ext
    unfold capitialize
    cases hd : key.data with
    | nil => simp [hd]
    | cons c cs => simp [toUpper_eq_of_not_lower c (h c cs hd)]

theorem instance_header_eq (r n l : String) :
    "func " ++ ("(self *" ++ r ++ ")") ++ " " ++ n ++ "(" ++ l ++ ") " ++ anyType ++ " \x7b" =
      "func (self *" ++ r ++ ") " ++ n ++ "(" ++ l ++ ") interface\x7b\x7d \x7b" := by
  have e1 : ∀ z, "func " ++ ("(self *" ++ z) = "func (self *" ++ z := fun z => by
    rw [← String.append_assoc]; rfl
  have e2 : ∀ z, ")" ++ (" " ++ z) = ") " ++ z := fun z => by
    rw [← String.append_assoc]; rfl
  have e3 : ") " ++ (anyType ++ " \x7b") = ") interface\x7b\x7d \x7b" := by decide
  simp only [String.append_assoc, e1, e2, e3]

/-- C13, as the code has it, for names that are empty or start with an ASCII character: a
function-valued key is made a constructor by `Binding.Add`, and a Method is rendered in the
constructor form by `Method.Text`, exactly when `capitialize` leaves the name unchanged, that
is when the name does not start with a lower-case letter `a..z` (so for names that start with
an upper-case letter, `_`, `$` or a digit).  A function key that starts with a lower-case
letter becomes an instance method owned by the struct under construction, the key
`constructor` excepted, which is skipped; a Method with such a name and an owner is rendered
with the receiver `(self *<Struct>)`. -/
theorem constructor_rule (key text : String) (ps : Props) (proto : GetResult) (rest : Props)
    (p : Nat) (h : Heap) (b : Binding) (heap : Heap) (m : Method) :
    ((∀ c cs, key.data = c :: cs → c.toNat < 128) →
      (key = capitialize key ↔ ∀ c cs, key.data = c :: cs → c.isLower = false)) ∧
    ((∀ c cs, key.data = c :: cs → c.toNat < 128 ∧ c.isLower = false) →
      Binding.addKeys p (.cons key (.ok (.object (.mk "Function" text ps proto))) rest) h b =
        withParams (.mk "Function" text ps proto) h b fun params =>
          match proto with
          | .error err =>
            (.error err, h, b.addElement
              (.method { Name := key, Binding := none, Params := params, Return := none }))
          | .ok (.object protoObj) =>
            afterAdd (Binding.Add key protoObj h (b.addElement
              (.method { Name := key, Binding := none, Params := params, Return := none })))
              (Binding.addKeys p rest)
          | .ok _ =>
            (.panic "nil pointer dereference", h, b.addElement
              (.method { Name := key, Binding := none, Params := params, Return := none }))) ∧
    ((∃ c cs, key.data = c :: cs ∧ c.isLower = true) → key ≠ "constructor" →
      Binding.addKeys p (.cons key (.ok (.object (.mk "Function" text ps proto))) rest) h b =
        withParams (.mk "Function" text ps proto) h b fun params =>
          Binding.addKeys p rest h
            (b.addElement (.method
              { Name := key, Binding := some p, Params := params,
                Return := some { Name := "", Typ := "interface\x7b\x7d" } }))) ∧
    (Binding.addKeys p
        (.cons "constructor" (.ok (.object (.mk "Function" text ps proto))) rest) h b =
      Binding.addKeys p rest h b) ∧
    ((∀ c cs, m.Name.data = c :: cs → c.toNat < 128 ∧ c.isLower = false) →
      Method.Text heap m = .ok
        [ "func New" ++ m.Name ++ "(" ++ VarList.list (VarList.sanitized m.Params) ++ ") *" ++
            m.Name ++ " \x7b",
          "return js.Global.Get(\"" ++ m.Name ++ "\").New(" ++
            VarList.listNames (VarList.sanitized m.Params) ++ ")",
          "\x7d" ]) ∧
    ((∃ c cs, m.Name.data = c :: cs ∧ c.isLower = true) →
      ∀ q lines, m.Binding = some q → Method.Text heap m = .ok lines →
        lines.head? = some ("func (self *" ++ (heap.deref q).Name ++ ") " ++
          capitialize m.Name ++ "(" ++ VarList.list (VarList.sanitized m.Params) ++
          ") interface\x7b\x7d \x7b")) := by
  refine ⟨capitialize_eq_iff key, fun hk => ?_, fun hk hcon => ?_, ?_, fun hk => ?_,
    fun hk q lines hq ht => ?_⟩
  · rw [addKeys_object, if_pos rfl,
      if_pos ((capitialize_eq_iff key (fun c cs hd => (hk c cs hd).1)).mpr
        (fun c cs hd => (hk c cs hd).2))]
  · obtain ⟨c, cs, hd, hl⟩ := hk
    rw [addKeys_object, if_pos rfl, if_neg (capitialize_ne_of_lower key c cs hd hl),
      if_neg hcon]
    rfl
  · rw [addKeys_object, if_pos rfl, if_neg (by decide), if_pos rfl]
  · rw [Method.Text_constructor heap m
      ((capitialize_eq_iff m.Name (fun c cs hd => (hk c cs hd).1)).mpr
        (fun c cs hd => (hk c cs hd).2)).symm]
    rfl
  · obtain ⟨c, cs, hd, hl⟩ := hk
    have hne : capitialize m.Name ≠ m.Name :=
      fun he => capitialize_ne_of_lower m.Name c cs hd hl he.symm
    cases hr : m.Return with
    | none =>
      rw [Method.Text_noReturn heap m hne hr, hq] at ht
      cases ht
      simp only [List.head?_cons, instance_header_eq]
    | some ret =>
      rw [Method.Text_return heap m ret hne hr, hq] at ht
      cases hg : Method.genCastObject ("self.Call(\"" ++ m.Name ++ "\", " ++
          VarList.listNames (VarList.sanitized m.Params) ++ ")") ret.Typ with
      | error err => rw [hg] at ht; cases ht
      | ok casted =>
        rw [hg] at ht
        cases ht
        simp only [List.head?_cons, instance_header_eq]

/-- C13, counterexample: the function keys `_foo` and `$` of
`{_foo: function () {}, $: function () {}, bar: function () {}}` become constructors (Methods
without owner, each followed by the struct of its prototype), only `bar` becomes an instance
method; and a Method named `_foo` is rendered in the constructor form even when it has an
owner. -/
theorem underscore_key_is_constructor :
    (Binding.Add "lib" underscoreLibrary [] (New "lib")).2.2.elems =
      [.method { Name := "_foo", Binding := none, Params := [], Return := none },
       .struct 1,
       .method { Name := "$", Binding := none, Params := [], Return := none },
       .struct 2,
       .method { Name := "bar", Binding := some 0, Params := [],
                 Return := some { Name := "", Typ := "interface\x7b\x7d" } },
       .struct 0] ∧
    Method.Text [{ Name := "Lib", Methods := [], Fields := [] }]
        { Name := "_foo", Binding := some 0, Params := [],
          Return := some { Name := "", Typ := "interface\x7b\x7d" } } = .ok
      [ "func New_foo() *_foo \x7b", "return js.Global.Get(\"_foo\").New()", "\x7d" ] := by
  decide

/-! ## The extractor on other sources, interfaces, and the header of instance methods -/

/-- C14, the code at the failing inputs: on the arrow-style text `(a, b) => a`, on the named
function `function foo(a, b) {}` and on `function (a, // first` / ` b) {}`, whose header is
cut by the stripping of the line comment, `FindStringSubmatch` finds nothing and
`parseParams` panics; a call of `Binding.Add` that reaches such a function panics too. -/
theorem parseParams_panics :
    parseParams (.mk "Function" "(a, b) => a" .nil (.ok .undefined)) = none ∧
    parseParams (.mk "Function" "function foo(a, b) \x7b\x7d" .nil (.ok .undefined)) = none ∧
    parseParams (.mk "Function" "function (a, // first\n b) \x7b\x7d" .nil (.ok .undefined)) =
      none ∧
    (Binding.Add "lib" (plainObject [("f", .ok (functionValue "(a, b) => a" []))]) []
      (New "lib")).1 = .panic "index out of range" := by
  decide

/-- C15, the code at the failing inputs: on `function foo(a, b) { var f = function (y) {}; }`
the pattern `function\s*\(` does not match at the named header and matches the later function
expression, so that `parseParams` returns `y`; on `function foo(a, b) {}` it matches nowhere
and `parseParams` panics.  Without the name the header is found, also in front of a later
function expression. -/
theorem parseParams_named_function :
    parseParams (.mk "Function"
        "function foo(a, b) \x7b var f = function (y) \x7b\x7d; \x7d" .nil (.ok .undefined)) =
      some [{ Name := "y", Typ := "interface\x7b\x7d" }] ∧
    parseParams (.mk "Function" "function foo(a, b) \x7b\x7d" .nil (.ok .undefined)) = none ∧
    parseParams (.mk "Function"
        "function (a, b) \x7b var f = function (y) \x7b\x7d; \x7d" .nil (.ok .undefined)) =
      some [{ Name := "a", Typ := "interface\x7b\x7d" },
            { Name := "b", Typ := "interface\x7b\x7d" }] := by
  decide

theorem methodLines_ok (ms : List Method) (rets : List Variable)
    (hr : List.Forall₂ (fun (m : Method) r => m.Return = some r) ms rets)
    (lines : List String) :
    Interface.methodLines ms lines =
      .ok (lines ++ (ms.zip rets).map (fun mr =>
        mr.1.Name ++ "(" ++ ", ".intercalate (mr.1.Params.map (fun v => v.Typ)) ++ ") " ++
          mr.2.Typ)) := by
  induction hr generalizing lines with
  | nil => simp [Interface.methodLines]
  | @cons m r ms rets hm _ ih =>
    have ht : (VarList.sanitized m.Params).map (fun v => v.Typ) =
        m.Params.map (fun v => v.Typ) := by
      rw [VarList.sanitized_eq_map, List.map_map]
      rfl
    simp only [Interface.methodLines, hm, ih, VarList.listTypes_eq, ht, List.zip_cons_cons,
      List.map_cons, List.append_assoc, List.singleton_append]

/-- The text of an interface all of whose methods declare a return: one line per method,
with the types of the parameters only. -/
theorem Interface.Text_declared (i : Interface) (rets : List Variable)
    (hr : List.Forall₂ (fun (m : Method) r => m.Return = some r) i.Methods rets) :
    Interface.Text i = .ok
      ([ "type " ++ i.Name ++ " interface \x7b" ] ++
        (i.Methods.zip rets).map (fun mr =>
          mr.1.Name ++ "(" ++ ", ".intercalate (mr.1.Params.map (fun v => v.Typ)) ++ ") " ++
            mr.2.Typ) ++
        [ "\x7d" ]) := by
  simp only [Interface.Text, methodLines_ok i.Methods rets hr]

/-- C18, the code at the failing input: for an interface with a method that declares no
return, `Interface.Text` dereferences the `nil` return descriptor and panics, whereas
`Method.Text` renders the same method; with a declared return the line of the method is
`<name>(<types>) <return type>`. -/
theorem interface_text_nil_return :
    Interface.Text
        { Name := "Shape",
          Methods := [{ Name := "area", Binding := none, Params := [], Return := none }] } =
      .error "nil pointer dereference" ∧
    Method.Text [] { Name := "area", Binding := none, Params := [], Return := none } = .ok
      [ "func  Area() interface\x7b\x7d \x7b", "self.Call(\"area\", )", "\x7d" ] ∧
    Interface.Text
        { Name := "Shape",
          Methods := [{ Name := "scale", Binding := none,
                        Params := [{ Name := "type", Typ := "string" },
                                   { Name := "by", Typ := "float64" }],
                        Return := some { Name := "", Typ := "int" } }] } = .ok
      [ "type Shape interface \x7b", "scale(string, float64) int", "\x7d" ] := by
  decide

/-- C20: for a method in the instance form (its name is not capitalized) the first line of
the text is `func <receiver> <capitialize(Name)>(<sanitized parameters as name type pairs>)
interface{} {` whatever the return descriptor is: with no return the body is the bare call,
with the return type `string`, `float64` or `int` the body returns the `.Str()`, `.Float()`
or `.Int()` conversion of the call. -/
theorem instance_header_result_type (h : Heap) (m : Method)
    (hc : capitialize m.Name ≠ m.Name) :
    (∀ lines, Method.Text h m = .ok lines →
      lines.head? = some
        ("func " ++ (match m.Binding with
            | none => ""
            | some p => "(self *" ++ (h.deref p).Name ++ ")") ++ " " ++ capitialize m.Name ++
          "(" ++ ", ".intercalate ((VarList.sanitized m.Params).map
            (fun v => v.Name ++ " " ++ v.Typ)) ++ ") interface\x7b\x7d \x7b")) ∧
    (m.Return = none →
      Method.Text h m = .ok
        [ "func " ++ (match m.Binding with
              | none => ""
              | some p => "(self *" ++ (h.deref p).Name ++ ")") ++ " " ++ capitialize m.Name ++
            "(" ++ ", ".intercalate ((VarList.sanitized m.Params).map
              (fun v => v.Name ++ " " ++ v.Typ)) ++ ") interface\x7b\x7d \x7b",
          "self.Call(\"" ++ m.Name ++ "\", " ++
            VarList.listNames (VarList.sanitized m.Params) ++ ")",
          "\x7d" ]) ∧
    (∀ ret conversion, m.Return = some ret →
      (ret.Typ = "string" ∧ conversion = ".Str()") ∨
      (ret.Typ = "float64" ∧ conversion = ".Float()") ∨
      (ret.Typ = "int" ∧ conversion = ".Int()") →
      Method.Text h m = .ok
        [ "func " ++ (match m.Binding with
              | none => ""
              | some p => "(self *" ++ (h.deref p).Name ++ ")") ++ " " ++ capitialize m.Name ++
            "(" ++ ", ".intercalate ((VarList.sanitized m.Params).map
              (fun v => v.Name ++ " " ++ v.Typ)) ++ ") interface\x7b\x7d \x7b",
          "return self.Call(\"" ++ m.Name ++ "\", " ++
            VarList.listNames (VarList.sanitized m.Params) ++ ")" ++ conversion,
          "\x7d" ]) := by
  refine ⟨fun lines ht => ?_, fun hr => ?_, fun ret conversion hr hcase => ?_⟩
  · cases hr : m.Return with
    | none =>
      rw [Method.Text_noReturn h m hc hr] at ht
      cases ht
      simp only [List.head?_cons, header_tail, VarList.list_eq]
    | some ret =>
      rw [Method.Text_return h m ret hc hr] at ht
      cases hg : Method.genCastObject ("self.Call(\"" ++ m.Name ++ "\", " ++
          VarList.listNames (VarList.sanitized m.Params) ++ ")") ret.Typ with
      | error err => rw [hg] at ht; cases ht
      | ok casted =>
        rw [hg] at ht
        cases ht
        simp only [List.head?_cons, header_tail, VarList.list_eq]
  · rw [Method.Text_noReturn h m hc hr, header_tail, VarList.list_eq]
  · rw [Method.Text_return h m ret hc hr, ← VarList.list_eq, ← header_tail]
    rcases hcase with ⟨h1, h2⟩ | ⟨h1, h2⟩ | ⟨h1, h2⟩ <;>
      simp [Method.genCastObject, h1, h2, String.append_assoc, return_call]

/-- Witness of `instance_header_result_type`: the method `bar` of the struct `Foo` with a
parameter named `type`, without return and with the return type `int`. -/
theorem instance_header_result_type_witness :
    Method.Text [{ Name := "Foo", Methods := [], Fields := [] }]
        { Name := "bar", Binding := some 0,
          Params := [{ Name := "type", Typ := "interface\x7b\x7d" }], Return := none } = .ok
      [ "func (self *Foo) Bar(type_ interface\x7b\x7d) interface\x7b\x7d \x7b",
        "self.Call(\"bar\", type_)", "\x7d" ] ∧
    Method.Text [{ Name := "Foo", Methods := [], Fields := [] }]
        { Name := "bar", Binding := some 0,
          Params := [{ Name := "type", Typ := "interface\x7b\x7d" }],
          Return := some { Name := "", Typ := "int" } } = .ok
      [ "func (self *Foo) Bar(type_ interface\x7b\x7d) interface\x7b\x7d \x7b",
        "return self.Call(\"bar\", type_).Int()", "\x7d" ] :=
  ⟨(instance_header_result_type [{ Name := "Foo", Methods := [], Fields := [] }] _
      (by decide)).2.1 rfl,
   (instance_header_result_type [{ Name := "Foo", Methods := [], Fields := [] }] _
      (by decide)).2.2 { Name := "", Typ := "int" } ".Int()" rfl
      (Or.inr (Or.inr ⟨rfl, rfl⟩))⟩

/-! ## What `Binding.Add` appends -/

theorem Heap.deref_mem (h : Heap) (s : Struct) (cells : Heap) (q : Nat)
    (hq : q = h.length ∨ (h.length + 1 ≤ q ∧ q < h.length + 1 + cells.length)) :
    Heap.deref (h ++ s :: cells) q ∈ s :: cells := by
  have hlt : q - h.length < (s :: cells).length := by
    simp only [List.length_cons]
    omega
  have hle : h.length ≤ q := by omega
  unfold Heap.deref
  rw [List.getD_eq_getElem?_getD, List.getElem?_append_right hle,
    List.getElem?_eq_getElem hlt]
  exact List.getElem_mem _

theorem GoodField.mem {v : Variable} (hv : GoodField v) :
    v.Typ ∈ ["string", "bool", "float64", "interface\x7b\x7d", "[]interface\x7b\x7d"] := by
  have e1 : anyType = "interface\x7b\x7d" := rfl
  have e2 : "[]" ++ anyType = "[]interface\x7b\x7d" := by decide
  unfold GoodField at hv
  rw [e2, e1] at hv
  simp only [List.mem_cons, List.mem_singleton, List.not_mem_nil, or_false]
  exact hv

/-- C16: whatever the object graph and however the call ends, every element that
`Binding.Add` appends is a Method or a Struct; the fields of such a Struct have one of the
types `string`, `bool`, `float64`, `interface{}`, `[]interface{}` (and it has no methods);
the parameters of such a Method have the type `interface{}`, its return is absent or of type
`interface{}`, and it is `interface{}` when the Method has an owner.  A key that holds an
array appends a field of type `[]interface{}`. -/
theorem add_variable_types (name : String) (obj : Object) (h : Heap) (b : Binding) :
    (∃ new, (Binding.Add name obj h b).2.2.elems = b.elems ++ new ∧
      ∀ e ∈ new,
        match e with
        | .iface _ => False
        | .struct q =>
          ((Binding.Add name obj h b).2.1.deref q).Methods = [] ∧
          ∀ f ∈ ((Binding.Add name obj h b).2.1.deref q).Fields,
            f.Typ ∈ ["string", "bool", "float64", "interface\x7b\x7d", "[]interface\x7b\x7d"]
        | .method m =>
          (∀ v ∈ m.Params, v.Typ = "interface\x7b\x7d") ∧
          (∀ r, m.Return = some r → r.Typ = "interface\x7b\x7d") ∧
          (∀ q, m.Binding = some q →
            m.Return = some { Name := "", Typ := "interface\x7b\x7d" })) ∧
    (∀ (p : Nat) (key text : String) (ps : Props) (proto : GetResult) (rest : Props)
        (h2 : Heap) (b2 : Binding),
      Binding.addKeys p (.cons key (.ok (.object (.mk "Array" text ps proto))) rest) h2 b2 =
        Binding.addKeys p rest
          (h2.update p (fun s =>
            { s with Fields := s.Fields ++
                [{ Name := key, Typ := "[]interface\x7b\x7d" }] })) b2) := by
  constructor
  · obtain ⟨o, s, cells, new, hr, _, hs, hcells, hnew, _⟩ := Add_inv obj name h b
    refine ⟨new, by rw [hr], fun e he => ?_⟩
    have hinv := hnew e he
    rw [hr]
    cases e with
    | iface i => exact hinv
    | struct q =>
      have hmem := Heap.deref_mem h s cells q (by simpa [ElemInv] using hinv)
      have hcell : GoodCell (Heap.deref (h ++ s :: cells) q) := by
        rcases List.mem_cons.mp hmem with hm | hm
        · rw [hm]; exact hs
        · exact hcells _ hm
      exact ⟨hcell.1, fun f hf => (hcell.2 f hf).mem⟩
    | method m =>
      obtain ⟨⟨hparams, hkind⟩, _⟩ := hinv
      refine ⟨hparams, fun r hr2 => ?_, fun q hq => ?_⟩
      · rcases hkind with ⟨_, hnone, _⟩ | ⟨_, hsome, _⟩
        · rw [hnone] at hr2; cases hr2
        · rw [hsome] at hr2; cases hr2; rfl
      · rcases hkind with ⟨hb, _, _⟩ | ⟨_, hsome, _⟩
        · rw [hb] at hq; cases hq
        · exact hsome
  · intro p key text ps proto rest h2 b2
    rw [addKeys_object, if_neg (by decide), if_pos rfl]
    rfl

/-- The keys in front that hold lower-case functions append one method each; the run then
goes on with the other keys. -/
theorem addKeys_methods_then (p : Nat) (ms : List (String × Object))
    (tail : List (String × GetResult))
    (hm : ∀ kf ∈ ms,
      (∃ text ps proto, kf.2 = Object.mk "Function" text ps proto) ∧
      (∃ c cs, kf.1.data = c :: cs ∧ c.isLower = true) ∧
      kf.1 ≠ "constructor" ∧ (parseParams kf.2).isSome = true)
    (h : Heap) (b : Binding) :
    Binding.addKeys p
        (Props.ofList (ms.map (fun kf => (kf.1, GetResult.ok (Value.object kf.2))) ++ tail))
        h b =
      Binding.addKeys p (Props.ofList tail) h
        { b with elems := b.elems ++ ms.map (fun kf => Element.method
          { Name := kf.1, Binding := some p, Params := (parseParams kf.2).getD [],
            Return := some { Name := "", Typ := anyType } }) } := by
  induction ms generalizing b with
  | nil => simp
  | cons kf rest ih =>
    obtain ⟨key, fn⟩ := kf
    have hrest := fun kf hkf => hm kf (List.mem_cons_of_mem _ hkf)
    obtain ⟨⟨text, ps, proto, hfn⟩, ⟨c, cs, hd, hl⟩, hcon, hpar⟩ :=
      hm (key, fn) (List.mem_cons_self _ _)
    simp only at hfn hd hcon hpar
    subst hfn
    obtain ⟨params, hparams⟩ := Option.isSome_iff_exists.mp hpar
    simp only [List.map_cons, List.cons_append, Props.ofList]
    rw [addKeys_object, if_pos rfl, if_neg (capitialize_ne_of_lower key c cs hd hl),
      if_neg hcon, withParams, hparams]
    simp only [List.append_eq]
    rw [ih hrest]
    simp [Binding.addElement, hparams]

/-- C17, as the code has it: a call of `Binding.Add` never removes an element, so the
sequence after the call is the sequence before it followed by what the call has appended;
and when the keys `m1..mj` in front hold lower-case functions and reading the next key
fails, `Add` returns that error and the `j` methods that it has appended stay in the
binding (the Struct of the object is not appended). -/
theorem add_error_keeps_elements (name cls text key err : String) (objProto : GetResult)
    (ms : List (String × Object)) (tail : List (String × GetResult)) (h : Heap)
    (b : Binding)
    (hm : ∀ kf ∈ ms,
      (∃ text ps proto, kf.2 = Object.mk "Function" text ps proto) ∧
      (∃ c cs, kf.1.data = c :: cs ∧ c.isLower = true) ∧
      kf.1 ≠ "constructor" ∧ (parseParams kf.2).isSome = true) :
    (∀ (n : String) (o : Object) (h0 : Heap) (b0 : Binding),
      ∃ new, (Binding.Add n o h0 b0).2.2.elems = b0.elems ++ new) ∧
    Binding.Add name
        (.mk cls text
          (Props.ofList (ms.map (fun kf => (kf.1, GetResult.ok (Value.object kf.2))) ++
            (key, .error err) :: tail)) objProto) h b =
      (.error err,
       h ++ [{ Name := capitialize name, Methods := [], Fields := [] }],
       { b with elems := b.elems ++ ms.map (fun kf => Element.method
          { Name := kf.1, Binding := some h.length, Params := (parseParams kf.2).getD [],
            Return := some { Name := "", Typ := "interface\x7b\x7d" } }) }) := by
  constructor
  · intro n o h0 b0
    obtain ⟨_, _, _, new, hr, _⟩ := Add_inv o n h0 b0
    exact ⟨new, by rw [hr]⟩
  · rw [Binding.Add_eq, addKeys_methods_then _ ms _ hm]
    simp only [Props.ofList]
    rw [addKeys_error]
    rfl

/-- Witness of `add_error_keeps_elements`: `{foo: function () {}, bad: <getter that
throws>}`. -/
theorem add_error_keeps_elements_witness :
    Binding.Add "lib" laterFailureLibrary [] (New "lib") =
      (.error "getter threw",
       [{ Name := "Lib", Methods := [], Fields := [] }],
       { name := "lib",
         elems := [.method { Name := "foo", Binding := some 0, Params := [],
                             Return := some { Name := "", Typ := "interface\x7b\x7d" } }] }) :=
  (add_error_keeps_elements "lib" "Object" "[object Object]" "bad" "getter threw"
    (.ok .undefined)
    [("foo", .mk "Function" "function () \x7b\x7d" .nil
      (.ok (.object (.mk "Object" "[object Object]" .nil (.ok .undefined)))))]
    [] [] (New "lib")
    (by
      intro kf hkf
      rw [List.mem_singleton] at hkf
      subst hkf
      exact ⟨⟨_, _, _, rfl⟩, ⟨'f', _, rfl, by decide⟩, by decide, by decide⟩)).2

/-- C17, counterexample: on `{foo: function () {}, bad: <getter that throws>}` and a fresh
binding, `Binding.Add` returns the error of the read and the binding holds the method `foo`:
its element sequence is not the empty sequence of before the call. -/
theorem add_error_leaves_method :
    (Binding.Add "lib" laterFailureLibrary [] (New "lib")).1 = .error "getter threw" ∧
    (Binding.Add "lib" laterFailureLibrary [] (New "lib")).2.2.elems =
      [.method { Name := "foo", Binding := some 0, Params := [],
                 Return := some { Name := "", Typ := "interface\x7b\x7d" } }] ∧
    (Binding.Add "lib" laterFailureLibrary [] (New "lib")).2.2.elems ≠ (New "lib").elems := by
  decide

/-! ## Agreement of `Binding.Add` and `Method.Text` -/

/-- The text of an instance method with an owner and the return type `interface{}`. -/
theorem Method.Text_owned (h : Heap) (m : Method) (q : Nat) (hb : m.Binding = some q)
    (hr : m.Return = some { Name := "", Typ := anyType }) (hc : capitialize m.Name ≠ m.Name) :
    Method.Text h m = .ok
      [ "func (self *" ++ (h.deref q).Name ++ ") " ++ capitialize m.Name ++ "(" ++
          VarList.list (VarList.sanitized m.Params) ++ ") interface\x7b\x7d \x7b",
        "return self.Call(\"" ++ m.Name ++ "\", " ++
          VarList.listNames (VarList.sanitized m.Params) ++ ").Interface()",
        "\x7d" ] := by
  rw [Method.Text_return h m _ hc hr, hb]
  have hcast : ∀ x, Method.genCastObject x anyType = .ok (x ++ ".Interface()") := by
    intro x
    have e1 : ¬ anyType = "float64" := by decide
    have e2 : ¬ anyType = "int" := by decide
    have e3 : ¬ anyType = "string" := by decide
    simp [Method.genCastObject, e1, e2, e3]
  simp only [hcast]
  rw [instance_header_eq]
  have e1 : ∀ z, "return " ++ ("self.Call(\"" ++ z) = "return self.Call(\"" ++ z := fun z => by
    rw [← String.append_assoc]; rfl
  have e2 : ∀ z, ")" ++ (".Interface()" ++ z) = ").Interface()" ++ z := fun z => by
    rw [← String.append_assoc]; rfl
  have e3 : ")" ++ ".Interface()" = ").Interface()" := by decide
  simp only [String.append_assoc, e1, e2, e3]

/-- C19, as the code has it: every Method that a call of `Binding.Add` appends without an
owner is rendered by `Method.Text` in the constructor form, and every Method that it appends
with an owner `q` is rendered in the instance form with the receiver `(self *S)`, `S` being
the name of the Struct at `q`.  When the call runs through the whole object graph (no read
fails, every function has a parameter list that `parseParams` finds, every constructor has an
object as prototype) it returns `nil` and the Struct at `q` is appended later in the
sequence than the Method. -/
theorem classifier_renderer_agreement (name : String) (obj : Object) (h : Heap)
    (b : Binding) :
    ∃ new, (Binding.Add name obj h b).2.2.elems = b.elems ++ new ∧
      (obj.traversable = true → (Binding.Add name obj h b).1 = .ok) ∧
      ∀ pre m post, new = pre ++ Element.method m :: post →
        (m.Binding = none →
          Method.Text (Binding.Add name obj h b).2.1 m = .ok
            [ "func New" ++ m.Name ++ "(" ++ VarList.list (VarList.sanitized m.Params) ++
                ") *" ++ m.Name ++ " \x7b",
              "return js.Global.Get(\"" ++ m.Name ++ "\").New(" ++
                VarList.listNames (VarList.sanitized m.Params) ++ ")",
              "\x7d" ]) ∧
        (∀ q, m.Binding = some q →
          Method.Text (Binding.Add name obj h b).2.1 m = .ok
            [ "func (self *" ++ ((Binding.Add name obj h b).2.1.deref q).Name ++ ") " ++
                capitialize m.Name ++ "(" ++ VarList.list (VarList.sanitized m.Params) ++
                ") interface\x7b\x7d \x7b",
              "return self.Call(\"" ++ m.Name ++ "\", " ++
                VarList.listNames (VarList.sanitized m.Params) ++ ").Interface()",
              "\x7d" ] ∧
          (obj.traversable = true → Element.struct q ∈ post)) := by
  obtain ⟨o, s, cells, new, hr, _, _, _, hnew, ht⟩ := Add_inv obj name h b
  refine ⟨new, by rw [hr], fun htrav => ?_, fun pre m post hsplit => ?_⟩
  · rw [hr]
    exact (ht htrav).1
  · have hmem : Element.method m ∈ new := by
      rw [hsplit]
      exact List.mem_append_right _ (List.mem_cons_self _ _)
    obtain ⟨⟨_, hkind⟩, _⟩ := hnew _ hmem
    constructor
    · intro hb
      rcases hkind with ⟨_, _, hc⟩ | ⟨⟨q, hq⟩, _, _⟩
      · rw [Method.Text_constructor _ m hc]
        rfl
      · rw [hq] at hb
        cases hb
    · intro q hq
      rcases hkind with ⟨hb, _, _⟩ | ⟨_, hret, hc⟩
      · rw [hb] at hq
        cases hq
      · exact ⟨Method.Text_owned _ m q hq hret hc,
          fun htrav => (ht htrav).2 pre m post q hsplit hq⟩

/-- C19, counterexample: on `{inner: {foo: function () {}, bad: <getter that throws>}}` and
a fresh binding, `Binding.Add` returns `nil`; the binding holds the method `foo`, owned by
the struct at the address 1 and rendered with the receiver `(self *Inner)`, followed by the
struct at the address 0 (`Lib`) only: the struct `Inner` is nowhere in the sequence. -/
theorem receiver_struct_not_appended :
    (Binding.Add "lib" nestedLaterFailureLibrary [] (New "lib")).1 = .ok ∧
    (Binding.Add "lib" nestedLaterFailureLibrary [] (New "lib")).2.2.elems =
      [.method { Name := "foo", Binding := some 1, Params := [],
                 Return := some { Name := "", Typ := "interface\x7b\x7d" } },
       .struct 0] ∧
    Method.Text (Binding.Add "lib" nestedLaterFailureLibrary [] (New "lib")).2.1
        { Name := "foo", Binding := some 1, Params := [],
          Return := some { Name := "", Typ := "interface\x7b\x7d" } } =
      .ok [ "func (self *Inner) Foo() interface\x7b\x7d \x7b",
            "return self.Call(\"foo\", ).Interface()",
            "\x7d" ] ∧
    Element.struct 1 ∉ (Binding.Add "lib" nestedLaterFailureLibrary [] (New "lib")).2.2.elems ∧
    ((Binding.Add "lib" nestedLaterFailureLibrary [] (New "lib")).2.1.deref 0).Name = "Lib" := by
  decide

end Jsbind
